import Mathlib

/-!
# Verification of the coinedone document-privacy pipeline and financial tools

Shallow embedding of the PII scrubber (`redactPII`), the validation gate, the
orchestration (`extractSalaryFromDocument`), the chat route's file branch, the
confirmation formatter (`formatSalaryConfirmation`) and the deterministic EMI
tools (`src/lib/emi.js`).

Strings are modelled as `List Char`.  The JavaScript regular expressions used
by the scrubber and the gate are embedded by a small backtracking matcher that
reproduces the relevant JS semantics: ordered alternation, greedy `?`, `*`,
`+` and `{m,n}` quantifiers, word boundaries `\b` (with the character
preceding the match position threaded through), case-insensitive classes for
`/i` patterns, and `String.replace(re, lit)` with a global flag replacing
every non-overlapping leftmost match by a literal string.  The matcher
enumerates parse results in JS backtracking priority order, so the head of
the enumeration is the match JS commits to.  `*` recursion is driven by fuel;
every starred subpattern of the source consumes at least one character per
iteration, so fuel `length + 1` reproduces the unbounded behaviour.
-/

set_option maxRecDepth 10000

namespace Coinedone

/-- Regular-expression abstract syntax: the fragment used by the source. -/
inductive Re where
  | cls (p : Char → Bool)
  | eps
  | wb
  | seq (a b : Re)
  | alt (a b : Re)
  | opt (a : Re)
  | star (a : Re)

/-- JS `\w` (word character): ASCII letter, digit or underscore. -/
def isWordChar (c : Char) : Bool := c.isAlpha || c.isDigit || c = '_'

/-- Whether an optional character is a word character (`none` = outside the string). -/
def wordO : Option Char → Bool
  | some c => isWordChar c
  | none => false

/-- First character of a list, if any. -/
def headO : List Char → Option Char
  | [] => none
  | c :: _ => some c

/-- JS `\b`: word-character status changes between the previous character and
the next one. -/
def atBoundary (prev : Option Char) (s : List Char) : Bool :=
  wordO prev != wordO (headO s)

/-- One level of the matcher: `rec` performs the `star` re-entry (at one less
fuel); everything else is structural recursion on the regex. -/
def mresGo (rec : Re → Option Char → List Char → List (Option Char × List Char)) :
    Re → Option Char → List Char → List (Option Char × List Char)
  | .cls _, _, [] => []
  | .cls p, _, c :: r => if p c then [(some c, r)] else []
  | .eps, prev, s => [(prev, s)]
  | .wb, prev, s => if atBoundary prev s then [(prev, s)] else []
  | .seq a b, prev, s => (mresGo rec a prev s).flatMap (fun pr => mresGo rec b pr.1 pr.2)
  | .alt a b, prev, s => mresGo rec a prev s ++ mresGo rec b prev s
  | .opt a, prev, s => mresGo rec a prev s ++ [(prev, s)]
  | .star a, prev, s =>
      (mresGo rec a prev s).flatMap (fun pr => rec (.star a) pr.1 pr.2) ++ [(prev, s)]

/-- All parse results of a regex on a string, in JS backtracking priority
order.  Each result is the last consumed character (for later `\b` tests)
paired with the unconsumed rest.  `prev` is the character just before the
match position in the subject string.  `star` re-entry is bounded by `fuel`;
every starred subpattern below consumes at least one character per iteration,
so fuel `length + 1` reproduces the unbounded JS behaviour. -/
def mres : Nat → Re → Option Char → List Char → List (Option Char × List Char)
  | 0 => mresGo (fun _ prev s => [(prev, s)])
  | f + 1 => mresGo (mres f)

/-- `n`-fold repetition `re{n}`. -/
def reN : Nat → Re → Re
  | 0, _ => .eps
  | n + 1, a => .seq a (reN n a)

/-- Greedy `re{0,k}` (expansion of a bounded quantifier upper range). -/
def upTo : Nat → Re → Re
  | 0, _ => .eps
  | k + 1, a => .opt (.seq a (upTo k a))

/-- Greedy `re+`. -/
def rplus (a : Re) : Re := .seq a (.star a)

/-- Sequencing of a list of regexes. -/
def seqList : List Re → Re
  | [] => .eps
  | [a] => a
  | a :: rest => .seq a (seqList rest)

/-- Ordered alternation of a list of regexes. -/
def altList : List Re → Re
  | [] => .cls (fun _ => false)
  | [a] => a
  | a :: rest => .alt a (altList rest)

/-- Literal character. -/
def lit (c : Char) : Re := .cls (fun x => x = c)

/-- Case-insensitive literal character (for `/i` patterns). -/
def litCI (c : Char) : Re := .cls (fun x => x.toLower = c.toLower)

/-- Literal string. -/
def strRe (s : List Char) : Re := seqList (s.map lit)

/-- Case-insensitive literal string. -/
def strCI (s : List Char) : Re := seqList (s.map litCI)

/-- The match states scanned by a left-to-right search: every suffix of the
string paired with the character immediately before it. -/
def suffStates : Option Char → List Char → List (Option Char × List Char)
  | prev, [] => [(prev, [])]
  | prev, c :: r => (prev, c :: r) :: suffStates (some c) r

/-- First (JS-committed) match of a regex at a fixed position. -/
def firstMatch (re : Re) (prev : Option Char) (s : List Char) :
    Option (Option Char × List Char) :=
  (mres (s.length + 1) re prev s).head?

/-- JS `re.test(s)`: does the regex match anywhere in the string? -/
def searchRe (re : Re) (s : List Char) : Bool :=
  (suffStates none s).any (fun pr => !(mres (pr.2.length + 1) re pr.1 pr.2).isEmpty)

/-- Worker for global replacement: scan left to right; at each position take
the JS-committed match, emit the literal replacement and resume after it
(threading the last matched character as the new `\b` context), otherwise
keep the character and advance.  Fuel decreases once per emitted character or
match, so `length + 1` suffices. -/
def replAux (re : Re) (rep : List Char) : Nat → Option Char → List Char → List Char
  | 0, _, s => s
  | _ + 1, _, [] => []
  | f + 1, prev, c :: r =>
      match firstMatch re prev (c :: r) with
      | some (p', rest) =>
          if rest.length < r.length + 1 then rep ++ replAux re rep f p' rest
          else c :: replAux re rep f (some c) r
      | none => c :: replAux re rep f (some c) r

/-- JS `s.replace(/re/g, rep)` with a literal replacement string. -/
def replaceAll (re : Re) (rep : List Char) (s : List Char) : List Char :=
  replAux re rep (s.length + 1) none s

/-! ## Character classes used by the source patterns -/

/-- JS `\d`. -/
def dig : Re := .cls Char.isDigit

/-- JS `\s` (ASCII fragment: space, tab, newline, CR, VT, FF). -/
def isSpaceJS (c : Char) : Bool :=
  c = ' ' || c = '\t' || c = '\n' || c = '\r' || c = '\x0b' || c = '\x0c'

def wsp : Re := .cls isSpaceJS

/-- ASCII uppercase letter, `[A-Z]`. -/
def isUpperAZ (c : Char) : Bool := 'A' ≤ c && c ≤ 'Z'

/-- ASCII lowercase letter, `[a-z]`. -/
def isLowerAZ (c : Char) : Bool := 'a' ≤ c && c ≤ 'z'

/-- ASCII letter, i.e. `[A-Z]` or `[a-z]` under `/i`. -/
def isAlphaAZ (c : Char) : Bool := isUpperAZ c || isLowerAZ c

def upperAZ : Re := .cls isUpperAZ
def lowerAZ : Re := .cls isLowerAZ
def alphaAZ : Re := .cls isAlphaAZ

/-! ## The scrubber `redactPII` (src/lib/visionExtractor.js, lines 39-68)

Each `replace` call of the source is one `replaceAll` pass below, applied in
source order. -/

/-- `/\b(AE\d{2}\s?\d{4}\s?\d{4}\s?\d{4}\s?\d{4}\s?\d{3})\b/gi` -/
def iban1Re : Re :=
  seqList [.wb, litCI 'A', litCI 'E', reN 2 dig,
    .opt wsp, reN 4 dig, .opt wsp, reN 4 dig, .opt wsp, reN 4 dig,
    .opt wsp, reN 4 dig, .opt wsp, reN 3 dig, .wb]

/-- `/\bIBAN[:\s]*[A-Z]{2}\d{2}[A-Z0-9]+\b/gi` (classes widened by `/i`). -/
def iban2Re : Re :=
  seqList [.wb, litCI 'I', litCI 'B', litCI 'A', litCI 'N',
    .star (.cls (fun c => c = ':' || isSpaceJS c)),
    reN 2 alphaAZ, reN 2 dig, rplus (.cls (fun c => isAlphaAZ c || c.isDigit)), .wb]

/-- `/\b[A-Z]{1,2}\d{6,9}\b/g` -/
def passportRe : Re :=
  seqList [.wb, upperAZ, upTo 1 upperAZ, reN 6 dig, upTo 3 dig, .wb]

/-- `[-\s]` -/
def sepCls : Re := .cls (fun c => c = '-' || isSpaceJS c)

/-- `/\b784[-\s]?\d{4}[-\s]?\d{7}[-\s]?\d\b/g` -/
def eidRe : Re :=
  seqList [.wb, lit '7', lit '8', lit '4', .opt sepCls, reN 4 dig,
    .opt sepCls, reN 7 dig, .opt sepCls, dig, .wb]

/-- `[A-Za-z0-9._%+-]` (the email local-part class). -/
def isLocalChar (c : Char) : Bool :=
  isAlphaAZ c || c.isDigit || c = '.' || c = '_' || c = '%' || c = '+' || c = '-'

/-- `[A-Za-z0-9.-]` (the email domain class). -/
def isDomChar (c : Char) : Bool := isAlphaAZ c || c.isDigit || c = '.' || c = '-'

/-- `[A-Z|a-z]` (the email TLD class, which also admits a literal `|`). -/
def isTldChar (c : Char) : Bool := isAlphaAZ c || c = '|'

/-- `/\b[A-Za-z0-9._%+-]+@[A-Za-z0-9.-]+\.[A-Z|a-z]{2,}\b/g` -/
def emailRe : Re :=
  seqList [.wb, rplus (.cls isLocalChar), lit '@', rplus (.cls isDomChar),
    lit '.', reN 2 (.cls isTldChar), .star (.cls isTldChar), .wb]

/-- `/\b(\+971|00971|971|0)?[5][0-9]{8}\b/g` -/
def phone1Re : Re :=
  seqList [.wb,
    .opt (altList [strRe ['+', '9', '7', '1'], strRe ['0', '0', '9', '7', '1'],
      strRe ['9', '7', '1'], strRe ['0']]),
    lit '5', reN 8 dig, .wb]

/-- `[-.\s]` -/
def sep2Cls : Re := .cls (fun c => c = '-' || c = '.' || isSpaceJS c)

/-- `/\b(\+\d{1,3}[-.\s]?)?\(?\d{3}\)?[-.\s]?\d{3}[-.\s]?\d{4}\b/g` -/
def phone2Re : Re :=
  seqList [.wb,
    .opt (seqList [lit '+', dig, upTo 2 dig, .opt sep2Cls]),
    .opt (lit '('), reN 3 dig, .opt (lit ')'), .opt sep2Cls,
    reN 3 dig, .opt sep2Cls, reN 4 dig, .wb]

/-- `/\b(Mr\.?|Ms\.?|Mrs\.?|Dr\.?)\s+[A-Z][a-z]+(\s+[A-Z][a-z]+)*\b/g` -/
def honorificRe : Re :=
  seqList [.wb,
    altList [.seq (strRe ['M', 'r']) (.opt (lit '.')),
      .seq (strRe ['M', 's']) (.opt (lit '.')),
      .seq (strRe ['M', 'r', 's']) (.opt (lit '.')),
      .seq (strRe ['D', 'r']) (.opt (lit '.'))],
    rplus wsp, upperAZ, rplus lowerAZ,
    .star (seqList [rplus wsp, upperAZ, rplus lowerAZ]), .wb]

/-- `/\b(Name|Employee\s*Name|Full\s*Name)[:\s]+[A-Z][a-z]+(\s+[A-Z][a-z]+)*/gi`
(under `/i` both letter classes match any ASCII letter). -/
def nameLabelRe : Re :=
  seqList [.wb,
    altList [strCI ['N', 'a', 'm', 'e'],
      seqList [strCI ['E', 'm', 'p', 'l', 'o', 'y', 'e', 'e'], .star wsp,
        strCI ['N', 'a', 'm', 'e']],
      seqList [strCI ['F', 'u', 'l', 'l'], .star wsp, strCI ['N', 'a', 'm', 'e']]],
    rplus (.cls (fun c => c = ':' || isSpaceJS c)),
    alphaAZ, rplus alphaAZ,
    .star (seqList [rplus wsp, alphaAZ, rplus alphaAZ])]

def ibanRep : List Char := "[REDACTED_IBAN]".data
def passportRep : List Char := "[REDACTED_PASSPORT]".data
def eidRep : List Char := "[REDACTED_EMIRATES_ID]".data
def emailRep : List Char := "[REDACTED_EMAIL]".data
def phoneRep : List Char := "[REDACTED_PHONE]".data
def nameRep : List Char := "[REDACTED_NAME]".data
def nameLabelRep : List Char := "Name: [REDACTED_NAME]".data

/-- `redactPII` (src/lib/visionExtractor.js lines 39-68): nine global regex
replacements in source order; falsy (empty) input is returned unchanged. -/
def redactPII (text : List Char) : List Char :=
  if text = [] then text
  else
    replaceAll nameLabelRe nameLabelRep
      (replaceAll honorificRe nameRep
        (replaceAll phone2Re phoneRep
          (replaceAll phone1Re phoneRep
            (replaceAll emailRe emailRep
              (replaceAll eidRe eidRep
                (replaceAll passportRe passportRep
                  (replaceAll iban2Re ibanRep
                    (replaceAll iban1Re ibanRep text))))))))

/-! ## The validation gate (src/lib/visionExtractor.js lines 144-151) -/

/-- `/AE\d{2}/i` — the gate's IBAN check (no word boundaries). -/
def gateIbanRe : Re := seqList [litCI 'A', litCI 'E', dig, dig]

/-- `/\b784[-\s]?\d{4}[-\s]?\d{7}[-\s]?\d\b/` — the gate's Emirates-ID check. -/
def gateEidRe : Re := eidRe

/-- `/\+971|\b05\d{8}\b/` — the gate's UAE-phone check. -/
def gatePhoneRe : Re :=
  .alt (strRe ['+', '9', '7', '1']) (seqList [.wb, lit '0', lit '5', reN 8 dig, .wb])

/-- `/\b[A-Z0-9._%+-]+@[A-Z0-9.-]+\.[A-Z]{2,}\b/i` — the gate's email check
(classes widened by `/i`). -/
def gateEmailRe : Re :=
  seqList [.wb, rplus (.cls isLocalChar), lit '@', rplus (.cls isDomChar),
    lit '.', reN 2 alphaAZ, .star alphaAZ, .wb]

/-- `piiPatterns.some(pattern => pattern.test(scrubbedText))`. -/
def hasPII (s : List Char) : Bool :=
  searchRe gateIbanRe s || searchRe gateEidRe s || searchRe gatePhoneRe s ||
    searchRe gateEmailRe s

/-! ## Response parsing (src/lib/visionExtractor.js lines 206-212) -/

/-- Index of the first occurrence of a character. -/
def firstIdxOf (c : Char) : List Char → Option Nat
  | [] => none
  | d :: r => if d = c then some 0 else (firstIdxOf c r).map (· + 1)

/-- Index of the last occurrence of a character. -/
def lastIdxOf (c : Char) (s : List Char) : Option Nat :=
  match firstIdxOf c s.reverse with
  | some k => some (s.length - 1 - k)
  | none => none

/-- `responseText.match(/\x7b[\s\S]*\x7d/)`: the leftmost match of this greedy
pattern runs from the first `\x7b` to the last `\x7d` of the whole string
(and no match exists when no `\x7d` follows a `\x7b`). -/
def braceSpan (s : List Char) : Option (List Char) :=
  match firstIdxOf '\x7b' s, lastIdxOf '\x7d' s with
  | some i, some j => if i < j then some ((s.drop i).take (j - i + 1)) else none
  | _, _ => none

/-- Depth scan after an opening brace, for `firstBalancedSpan`. -/
def balAux : Nat → List Char → Option (List Char)
  | _, [] => none
  | d, c :: r =>
      if c = '\x7b' then (balAux (d + 1) r).map (c :: ·)
      else if c = '\x7d' then
        (if d = 1 then some [c] else (balAux (d - 1) r).map (c :: ·))
      else (balAux d r).map (c :: ·)

/-- Modelled from the spec's words ("the parser must locate the first balanced
JSON object substring and parse only that"), for comparison with the
source-derived `braceSpan`: the substring running from the first `\x7b` to the
brace that balances it. -/
def firstBalancedSpan : List Char → Option (List Char)
  | [] => none
  | c :: r => if c = '\x7b' then (balAux 1 r).map (c :: ·) else firstBalancedSpan r

/-! ## Pipeline orchestration (src/lib/visionExtractor.js lines 123-236)

External effects are parameters: `hasApiKey` models the presence of
`process.env.GOOGLE_API_KEY`; `ocr` is the outcome of
`extractTextWithVisionOCR` (`.error` = the call threw, carrying the thrown
error's message); `reasoningModel` is the outcome of the reasoning-stage
`generateContent` call on a given prompt; `jsonParse` is the JS `JSON.parse`
runtime primitive (`.error` = it threw).  The `try/catch` of the source turns
every throw into `{success:false, error: error.message}`, which the model
expresses by returning the corresponding `.failure` directly.  The second
component of the result records whether the reasoning-stage request was
constructed and sent. -/

/-- A catch-all allowance entry of the extracted salary JSON. -/
structure Allowance where
  name : String
  amount : ℚ
  deriving DecidableEq

/-- The object shape produced by stage 4 (`extractedData`).  Absent JSON
fields are `none`; `otherAllowances` absent or empty is `[]`. -/
structure SalaryData where
  basicSalary : Option ℚ
  housingAllowance : Option ℚ
  transportationAllowance : Option ℚ
  otherAllowances : List Allowance
  totalGrossSalary : Option ℚ
  deductions : Option ℚ
  netSalary : Option ℚ
  currency : Option String
  error : Option String
  deriving DecidableEq

/-- JS truthiness of a possibly-absent number: `undefined`, `null` and `0`
are falsy. -/
def truthyQ : Option ℚ → Bool
  | some v => v ≠ 0
  | none => false

/-- JS truthiness of a possibly-absent string: `undefined` and `""` are falsy. -/
def truthyS : Option String → Bool
  | some s => s ≠ ""
  | none => false

/-- `Success(data)` / `Failure(error)` — the `{success, data?, error?}` result. -/
inductive ExtractResult where
  | success (data : SalaryData)
  | failure (error : String)

def noKeyMsg : String := "GOOGLE_API_KEY not configured"
def piiDetectedMsg : String := "Security validation failed: PII detected in scrubbed text"
def noJsonMsg : String := "Could not extract JSON from LLM response"
def fallbackMsg : String := "Failed to extract salary information"

/-- The catch-all's `error.message || "Failed to extract salary information"`
(src/lib/visionExtractor.js line 233): every thrown error's message passes
through this, and an empty (falsy) message becomes the fixed fallback. -/
def orFallback (e : String) : String := if e = "" then fallbackMsg else e

def promptTemplatePre : List Char :=
  ("You are a financial document analyzer. Extract ONLY salary-related information from the sanitized text below.\nNOTE: All PII has been redacted. You will see [REDACTED_*] placeholders - this is expected and secure.\n\nTEXT:\n\"\"\"\n").data

def promptTemplatePost : List Char :=
  ("\n\"\"\"\n\nExtract the following fields if present:\n- Basic Salary (monthly)\n- Housing Allowance\n- Transportation Allowance\n- Other Allowances (list each)\n- Total Gross Salary\n- Deductions (if any)\n- Net Salary\n- Currency (AED, USD, etc.)\n\nReturn ONLY JSON format:\n\x7b\n  \"basicSalary\": <number>,\n  \"housingAllowance\": <number>,\n  \"transportationAllowance\": <number>,\n  \"otherAllowances\": [\x7b\"name\": \"...\", \"amount\": <number>\x7d],\n  \"totalGrossSalary\": <number>,\n  \"deductions\": <number>,\n  \"netSalary\": <number>,\n  \"currency\": \"AED\"\n\x7d\n\nIMPORTANT:\n- Return ONLY the JSON object, no additional text\n- If a field is not found, omit it\n- All amounts should be numbers (no currency symbols)\n- If this is not a salary document, return: \x7b\"error\": \"Not a salary document\"\x7d").data

/-- The fixed instruction template with the scrubbed text embedded. -/
def buildPrompt (scrubbedText : List Char) : List Char :=
  promptTemplatePre ++ scrubbedText ++ promptTemplatePost

/-- `extractSalaryFromDocument` (src/lib/visionExtractor.js lines 123-236).
Every failing stage inside the `try` block throws, and the catch-all converts
the thrown error to `{success: false, error: error.message || fallback}`, so
each thrown message goes through `orFallback`; the `extractedData.error`
branch is a plain return and is not wrapped. -/
def extractSalaryFromDocument (hasApiKey : Bool) (ocr : Except String (List Char))
    (reasoningModel : List Char → Except String (List Char))
    (jsonParse : List Char → Except String SalaryData) : ExtractResult × Bool :=
  if !hasApiKey then (.failure (orFallback noKeyMsg), false)
  else
    match ocr with
    | .error e => (.failure (orFallback e), false)
    | .ok rawText =>
        if hasPII (redactPII rawText) then (.failure (orFallback piiDetectedMsg), false)
        else
          match reasoningModel (buildPrompt (redactPII rawText)) with
          | .error e => (.failure (orFallback e), true)
          | .ok responseText =>
              match braceSpan responseText with
              | none => (.failure (orFallback noJsonMsg), true)
              | some jsonStr =>
                  match jsonParse jsonStr with
                  | .error e => (.failure (orFallback e), true)
                  | .ok extractedData =>
                      if truthyS extractedData.error then
                        (.failure (extractedData.error.getD ""), true)
                      else (.success extractedData, true)

/-! ## Confirmation formatter (src/lib/visionExtractor.js lines 241-293)

`Number.prototype.toLocaleString` is locale- and runtime-dependent, so it is
a parameter `fmt`. -/

def formatSalaryConfirmation (fmt : ℚ → String) (salaryData : SalaryData)
    (monthlySalaryUsed : Option ℚ) : String :=
  let currency := salaryData.currency.getD "AED"
  let m0 := "I've analyzed your salary slip. Here's what I found:\n\n"
  let m1 := m0 ++
    (if truthyQ salaryData.basicSalary then
      "💰 Basic Salary: " ++ currency ++ " " ++ fmt (salaryData.basicSalary.getD 0) ++ "\n"
    else "")
  let m2 := m1 ++
    (if truthyQ salaryData.housingAllowance then
      "🏠 Housing Allowance: " ++ currency ++ " " ++
        fmt (salaryData.housingAllowance.getD 0) ++ "\n"
    else "")
  let m3 := m2 ++
    (if truthyQ salaryData.transportationAllowance then
      "🚗 Transportation Allowance: " ++ currency ++ " " ++
        fmt (salaryData.transportationAllowance.getD 0) ++ "\n"
    else "")
  let m4 := m3 ++
    (if salaryData.otherAllowances ≠ [] then
      String.join (salaryData.otherAllowances.map (fun allowance =>
        "📋 " ++ allowance.name ++ ": " ++ currency ++ " " ++ fmt allowance.amount ++ "\n"))
    else "")
  let m5 := m4 ++
    (if truthyQ salaryData.totalGrossSalary then
      "\n📊 Total Gross Salary: " ++ currency ++ " " ++
        fmt (salaryData.totalGrossSalary.getD 0) ++ "\n"
    else "")
  let m6 := m5 ++
    (if truthyQ salaryData.deductions then
      "➖ Deductions: " ++ currency ++ " " ++ fmt (salaryData.deductions.getD 0) ++ "\n"
    else "")
  let m7 := m6 ++
    (if truthyQ salaryData.netSalary then
      "✅ Net Salary: " ++ currency ++ " " ++ fmt (salaryData.netSalary.getD 0) ++ "\n"
    else "")
  let m8 := m7 ++
    (if truthyQ monthlySalaryUsed then
      "\n💡 **Using for mortgage calculations:** " ++ currency ++ " " ++
        fmt (monthlySalaryUsed.getD 0) ++ "/month"
    else "")
  m8 ++ "\n\nDoes this look correct? If yes, I can help you calculate how much you can afford for a mortgage!"

/-! ## Chat route, file-upload branch (src/app/api/chat/route.js lines 50-99) -/

/-- JS `a || b` on possibly-absent numbers. -/
def jsOrQ (a b : Option ℚ) : Option ℚ := if truthyQ a then a else b

/-- `salaryData.netSalary || salaryData.totalGrossSalary || salaryData.basicSalary`
(route.js lines 76-79). -/
def chooseMonthlyIncome (salaryData : SalaryData) : Option ℚ :=
  jsOrQ salaryData.netSalary (jsOrQ salaryData.totalGrossSalary salaryData.basicSalary)

def extractionFallbackMsg : String :=
  "I couldn’t safely extract salary data. Please try another document."

/-- The assistant-message content the route returns to the caller on the
file-upload path (route.js lines 59-98): on failure,
`extractionResult.error || fallback`; on success, the confirmation message. -/
def routeFileContent (fmt : ℚ → String) : ExtractResult → String
  | .failure e => if e ≠ "" then e else extractionFallbackMsg
  | .success d => formatSalaryConfirmation fmt d (chooseMonthlyIncome d)

/-- The `_state.extractedData.income` attached on the success path
(route.js lines 92-96). -/
def routeFileIncome : ExtractResult → Option ℚ
  | .failure _ => none
  | .success d => chooseMonthlyIncome d

/-! ## Deterministic financial tools (src/lib/emi.js)

JS numbers are modelled exactly over `ℚ`.  `Number(x || d)` on an absent
(`null`/`undefined`) or zero argument yields the default `d`; the `NaN`
branch of the source is unreachable over `ℚ`. -/

/-- `clampTenureYears` (emi.js lines 1-5). -/
def clampTenureYears (tenureYears : Option ℚ) : ℚ :=
  let t : ℚ :=
    match tenureYears with
    | none => 25
    | some v => if v = 0 then 25 else v
  if t ≤ 0 then 25 else min t 25

/-- `clampRateAnnual` (emi.js lines 7-11). -/
def clampRateAnnual (rateAnnual : Option ℚ) : ℚ :=
  let r : ℚ :=
    match rateAnnual with
    | none => 9 / 200
    | some v => if v = 0 then 9 / 200 else v
  if r ≤ 0 then 9 / 200 else r

/-- The record returned by `enforceLTV`; `upfrontCostEstimate` is absent
(`undefined`) on the invalid-price branch. -/
structure LTVResult where
  loanAmount : ℚ
  issues : List String
  upfrontCostEstimate : Option ℚ

/-- `enforceLTV` (emi.js lines 13-24). -/
def enforceLTV (price downPayment : ℚ) : LTVResult :=
  if price ≤ 0 then ⟨0, ["invalid_price"], none⟩
  else
    let maxLoan := price * (4 / 5)
    let impliedDownPayment := price - maxLoan
    let effectiveDown := max downPayment impliedDownPayment
    let loanAmount := max 0 (price - effectiveDown)
    let issues := if downPayment < impliedDownPayment
      then ["down_payment_adjusted_to_meet_ltv"] else []
    ⟨loanAmount, issues, some (price * (7 / 100))⟩

structure EMIResult where
  monthlyEmi : ℚ
  monthlyInterestPortion : ℚ
  monthlyPrincipalPortion : ℚ

/-- `calculateEMI` (emi.js lines 26-40).  `Math.pow(1 + r, n)` is modelled as
exact exponentiation by the (integral) month count; the tenures the tool is
specified and tested on are whole years, for which this is `Math.pow`'s value
computed exactly instead of in floating point. -/
def calculateEMI (loanAmount : ℚ) (annualRate tenureYears : Option ℚ) : EMIResult :=
  let P := loanAmount
  let rAnnual := clampRateAnnual annualRate
  let nYears := clampTenureYears tenureYears
  let r := rAnnual / 12
  let n : ℚ := nYears * 12
  if P ≤ 0 ∨ r ≤ 0 ∨ n ≤ 0 then ⟨0, 0, 0⟩
  else
    let pow : ℚ := (1 + r) ^ n.floor.toNat
    let monthlyEmi := P * r * pow / (pow - 1)
    let monthlyInterestPortion := P * r
    ⟨monthlyEmi, monthlyInterestPortion, monthlyEmi - monthlyInterestPortion⟩

/-! ## Token shapes

The PII shapes named by the spec (section 4.1), as structural predicates on
`List Char` tokens.  These are the shapes the claims quantify over.  Digits
and letters are enumerated (`Fin 10` / `Fin 26` indices mapped to the
corresponding characters), which keeps every character-class fact about an
arbitrary shaped token decidable. -/

/-- The decimal digit characters, `'0'` to `'9'`. -/
def dchar (i : Fin 10) : Char := Char.ofNat (48 + i.val)

/-- The uppercase ASCII letters, `'A'` to `'Z'`. -/
def uchar (i : Fin 26) : Char := Char.ofNat (65 + i.val)

/-- The lowercase ASCII letters, `'a'` to `'z'`. -/
def lchar (i : Fin 26) : Char := Char.ofNat (97 + i.val)

/-- An optional one-character separator drawn from a class. -/
def SepOpt (p : Char → Bool) (sp : List Char) : Prop :=
  sp = [] ∨ ∃ c, p c = true ∧ sp = [c]

/-- A well-formed (UAE-format) IBAN: `AE`, 2 check digits, then 19 further
digits in the standard 4-4-4-4-3 grouping, each group optionally preceded by
a single space. -/
def IbanTok (tok : List Char) : Prop :=
  ∃ (g0 g1 g2 g3 g4 g5 : List (Fin 10)) (s1 s2 s3 s4 s5 : List Char),
    tok = 'A' :: 'E' ::
      (g0.map dchar ++ (s1 ++ (g1.map dchar ++ (s2 ++ (g2.map dchar ++ (s3 ++
        (g3.map dchar ++ (s4 ++ (g4.map dchar ++ (s5 ++ g5.map dchar)))))))))) ∧
    g0.length = 2 ∧ g1.length = 4 ∧ g2.length = 4 ∧ g3.length = 4 ∧
    g4.length = 4 ∧ g5.length = 3 ∧
    SepOpt isSpaceJS s1 ∧ SepOpt isSpaceJS s2 ∧ SepOpt isSpaceJS s3 ∧
    SepOpt isSpaceJS s4 ∧ SepOpt isSpaceJS s5

/-- A passport-shaped token: 1-2 uppercase letters then 6-9 digits. -/
def PassportTok (tok : List Char) : Prop :=
  ∃ (us : List (Fin 26)) (ds : List (Fin 10)),
    tok = us.map uchar ++ ds.map dchar ∧ 1 ≤ us.length ∧ us.length ≤ 2 ∧
    6 ≤ ds.length ∧ ds.length ≤ 9

/-- `[-\s]` as a Boolean class. -/
def isEidSep (c : Char) : Bool := c = '-' || isSpaceJS c

/-- A national-ID-shaped (Emirates-ID) token: the fixed `784` prefix then
digit groups of lengths 4, 7 and 1, each optionally preceded by a single
hyphen or space. -/
def EidTok (tok : List Char) : Prop :=
  ∃ (s1 s2 s3 : List Char) (a b : List (Fin 10)) (c : Fin 10),
    tok = '7' :: '8' :: '4' ::
      (s1 ++ (a.map dchar ++ (s2 ++ (b.map dchar ++ (s3 ++ [dchar c]))))) ∧
    SepOpt isEidSep s1 ∧ a.length = 4 ∧
    SepOpt isEidSep s2 ∧ b.length = 7 ∧ SepOpt isEidSep s3

/-- An email address of the standard `local@domain.tld` shape, with
alphabetic lowercase local part, single-label lowercase domain, and lowercase
TLD of length at least 2. -/
def EmailTok (tok : List Char) : Prop :=
  ∃ (lo dm tl : List (Fin 26)),
    tok = lo.map lchar ++ '@' :: (dm.map lchar ++ '.' :: tl.map lchar) ∧
    lo ≠ [] ∧ dm ≠ [] ∧ 2 ≤ tl.length

/-- A local mobile number: optional country-code form, then the mobile-network
digit `5`, then 8 more digits. -/
def MobileTok (tok : List Char) : Prop :=
  ∃ (pfx : List Char) (ds : List (Fin 10)),
    (pfx = [] ∨ pfx = ['0'] ∨ pfx = ['9', '7', '1'] ∨ pfx = ['0', '0', '9', '7', '1'] ∨
      pfx = ['+', '9', '7', '1']) ∧
    tok = pfx ++ '5' :: ds.map dchar ∧ ds.length = 8

/-- No scrubber pattern matches anywhere in the text (the second scrub pass
finds nothing to do). -/
def noResidualMatch (u : List Char) : Prop :=
  searchRe iban1Re u = false ∧ searchRe iban2Re u = false ∧
  searchRe passportRe u = false ∧ searchRe eidRe u = false ∧
  searchRe emailRe u = false ∧ searchRe phone1Re u = false ∧
  searchRe phone2Re u = false ∧ searchRe honorificRe u = false ∧
  searchRe nameLabelRe u = false

/-- Is `pat` a prefix of `s`? -/
def subAt : List Char → List Char → Bool
  | [], _ => true
  | _ :: _, [] => false
  | c :: p, d :: s => c = d && subAt p s

/-- Does `pat` occur as a contiguous substring of `s`? -/
def hasSub (pat : List Char) : List Char → Bool
  | [] => pat.isEmpty
  | d :: s => subAt pat (d :: s) || hasSub pat s

/-- The last character of `u`, or `prev` when `u` is empty: the `\b` context
after consuming `u`. -/
def olastD (prev : Option Char) : List Char → Option Char
  | [] => prev
  | c :: u => olastD (some c) u

/-- The parse results of a greedy `(cls p)*` on `u ++ rest` when `u` is the
maximal run of `p`-characters: all splits of `u`, longest consumed first. -/
def starSplits : Option Char → List Char → List Char → List (Option Char × List Char)
  | prev, [], rest => [(prev, rest)]
  | prev, c :: u, rest => starSplits (some c) u rest ++ [(prev, c :: u ++ rest)]

/-- A syntactic lower bound on how many characters satisfying `p` any
successful parse of a regex must consume. -/
inductive MinCnt (p : Char → Bool) : Re → Nat → Prop where
  | cls {q : Char → Bool} (h : ∀ c, q c = true → p c = true) : MinCnt p (.cls q) 1
  | clsZero (q : Char → Bool) : MinCnt p (.cls q) 0
  | eps : MinCnt p .eps 0
  | wb : MinCnt p .wb 0
  | seq {a b m n} (ha : MinCnt p a m) (hb : MinCnt p b n) : MinCnt p (.seq a b) (m + n)
  | alt {a b m n} (ha : MinCnt p a m) (hb : MinCnt p b n) : MinCnt p (.alt a b) (min m n)
  | opt (a : Re) : MinCnt p (.opt a) 0
  | star (a : Re) : MinCnt p (.star a) 0

/-- The placeholder tokens the scrubber emits, plus a separating space. -/
def placeholderPieces : List (List Char) :=
  [ibanRep, passportRep, eidRep, emailRep, phoneRep, nameRep, [' ']]

/-- A text containing only placeholder tokens (possibly space-separated). -/
def PlaceholderText (s : List Char) : Prop :=
  ∃ parts : List (List Char), (∀ p ∈ parts, p ∈ placeholderPieces) ∧ s = parts.flatten

/-- Characters the IBAN-label pattern (`iban2Re`) can consume in its
letter-consuming atoms: the four case-insensitive label letters or any ASCII
letter.  Used for a syntactic lower bound on letters any `iban2Re` match
needs. -/
def isCIiban (c : Char) : Bool :=
  c.toLower = 'I'.toLower || c.toLower = 'B'.toLower || c.toLower = 'A'.toLower ||
  c.toLower = 'N'.toLower || isAlphaAZ c

/-! # Claims -/

theorem orFallback_ne (e : String) (h : e ≠ "") : orFallback e = e := by
  unfold orFallback
  rw [if_neg h]

theorem orFallback_empty : orFallback "" = fallbackMsg := rfl

theorem orFallback_key : orFallback noKeyMsg = noKeyMsg :=
  orFallback_ne _ (by decide)

theorem orFallback_pii : orFallback piiDetectedMsg = piiDetectedMsg :=
  orFallback_ne _ (by decide)

theorem orFallback_json : orFallback noJsonMsg = noJsonMsg :=
  orFallback_ne _ (by decide)

/-- C8: for every positive price, `enforceLTV` caps the loan at 80% of the
price, silently raises a below-20% down payment to the minimum and reports the
`down_payment_adjusted_to_meet_ltv` issue (and no issue otherwise), and
estimates upfront costs at 7% of the price; concretely,
`enforceLTV 2000000 100000` yields loan 1600000 with the adjustment issue and
`enforceLTV 2000000 400000` yields upfront estimate 140000. -/
theorem c8_enforce_ltv (price downPayment : ℚ) (hp : 0 < price) :
    (enforceLTV price downPayment).loanAmount ≤ price * (4 / 5) ∧
    (downPayment < price * (1 / 5) →
      (enforceLTV price downPayment).loanAmount = price * (4 / 5) ∧
      (enforceLTV price downPayment).issues = ["down_payment_adjusted_to_meet_ltv"]) ∧
    (price * (1 / 5) ≤ downPayment → (enforceLTV price downPayment).issues = []) ∧
    (enforceLTV price downPayment).upfrontCostEstimate = some (price * (7 / 100)) ∧
    enforceLTV 2000000 100000 =
      ⟨1600000, ["down_payment_adjusted_to_meet_ltv"], some 140000⟩ ∧
    enforceLTV 2000000 400000 = ⟨1600000, [], some 140000⟩ := by
  have hnp : ¬ price ≤ 0 := not_le.mpr hp
  refine ⟨?_, ?_, ?_, ?_, ?_, ?_⟩
  · simp only [enforceLTV, if_neg hnp]
    apply max_le
    · nlinarith
    · have h1 : price - price * (4 / 5) ≤ max downPayment (price - price * (4 / 5)) :=
        le_max_right _ _
      linarith
  · intro hd
    have hd2 : downPayment ≤ price - price * (4 / 5) := by nlinarith
    have hd3 : downPayment < price - price * (4 / 5) := by nlinarith
    simp only [enforceLTV, if_neg hnp]
    refine ⟨?_, by simp [hd3]⟩
    rw [max_eq_right hd2]
    have h4 : price - (price - price * (4 / 5)) = price * (4 / 5) := by ring
    rw [h4]
    exact max_eq_right (by nlinarith)
  · intro hd
    have hd2 : ¬ downPayment < price - price * (4 / 5) := by nlinarith
    simp only [enforceLTV, if_neg hnp]
    simp [hd2]
  · simp [enforceLTV, if_neg hnp]
  · simp only [enforceLTV]; norm_num
  · simp only [enforceLTV]; norm_num

/-- C8 witness: the theorem applied at price 2000000, down payment 100000. -/
theorem c8_witness :
    (enforceLTV 2000000 100000).loanAmount ≤ 2000000 * (4 / 5) ∧
    ((100000 : ℚ) < 2000000 * (1 / 5) →
      (enforceLTV 2000000 100000).loanAmount = 2000000 * (4 / 5) ∧
      (enforceLTV 2000000 100000).issues = ["down_payment_adjusted_to_meet_ltv"]) ∧
    ((2000000 : ℚ) * (1 / 5) ≤ 100000 → (enforceLTV 2000000 100000).issues = []) ∧
    (enforceLTV 2000000 100000).upfrontCostEstimate = some (2000000 * (7 / 100)) ∧
    enforceLTV 2000000 100000 =
      ⟨1600000, ["down_payment_adjusted_to_meet_ltv"], some 140000⟩ ∧
    enforceLTV 2000000 400000 = ⟨1600000, [], some 140000⟩ :=
  c8_enforce_ltv 2000000 100000 (by norm_num)

/-- C9: `calculateEMI` clamps the tenure to a 25-year ceiling (tenure 30 gives
the identical result to tenure 25, for every loan amount and rate) and defaults
the rate to 4.5% when absent or non-positive; `calculateEMI 1600000 0.045 25`
yields a monthly payment strictly between 8000 and 9500. -/
theorem c9_calculate_emi :
    (∀ (P : ℚ) (rate : Option ℚ),
      calculateEMI P rate (some 30) = calculateEMI P rate (some 25)) ∧
    clampTenureYears (some 30) = 25 ∧ clampTenureYears (some 25) = 25 ∧
    clampRateAnnual none = 9 / 200 ∧
    (∀ r : ℚ, r ≤ 0 → clampRateAnnual (some r) = 9 / 200) ∧
    8000 < (calculateEMI 1600000 (some (9 / 200)) (some 25)).monthlyEmi ∧
    (calculateEMI 1600000 (some (9 / 200)) (some 25)).monthlyEmi < 9500 := by
  have h30 : clampTenureYears (some 30) = 25 := by norm_num [clampTenureYears]
  have h25 : clampTenureYears (some 25) = 25 := by norm_num [clampTenureYears]
  have hfl : ((25 : ℚ) * 12).floor.toNat = 300 := by
    have h1 : ((25 : ℚ) * 12) = 300 := by norm_num
    rw [h1, show Rat.floor (300 : ℚ) = ⌊(300 : ℚ)⌋ from rfl]
    norm_num
    rfl
  have hkey : (calculateEMI 1600000 (some (9 / 200)) (some 25)).monthlyEmi =
      6000 * ((803 / 800 : ℚ) ^ 300) / ((803 / 800 : ℚ) ^ 300 - 1) := by
    have hr : clampRateAnnual (some (9 / 200)) = 9 / 200 := by norm_num [clampRateAnnual]
    simp only [calculateEMI, h25, hr]
    rw [if_neg (by norm_num)]
    rw [hfl]
    norm_num
  have h4 : ((803 : ℚ) / 800) ^ 300 < 4 := by norm_num
  have h3 : (19 : ℚ) / 7 < (803 / 800 : ℚ) ^ 300 := by norm_num
  have hq1 : (0 : ℚ) < (803 / 800 : ℚ) ^ 300 - 1 := by linarith
  refine ⟨?_, h30, h25, by norm_num [clampRateAnnual], ?_, ?_, ?_⟩
  · intro P rate
    simp only [calculateEMI, h30, h25]
  · intro r hr
    rcases eq_or_lt_of_le hr with h | h
    · simp [clampRateAnnual, ← h]
    · have h0 : r ≠ 0 := ne_of_lt h
      simp [clampRateAnnual, h0, hr]
  · rw [hkey, lt_div_iff₀ hq1]
    linarith
  · rw [hkey, div_lt_iff₀ hq1]
    linarith

/-- C9 witness: the tenure-30/tenure-25 identity and the rate default at
concrete inputs, via the theorem. -/
theorem c9_witness :
    calculateEMI 1600000 (some (9 / 200)) (some 30) =
      calculateEMI 1600000 (some (9 / 200)) (some 25) ∧
    clampRateAnnual (some (-1 / 100)) = 9 / 200 :=
  ⟨c9_calculate_emi.1 1600000 (some (9 / 200)),
    c9_calculate_emi.2.2.2.2.1 (-1 / 100) (by norm_num)⟩

/-- C5 (amended): every failure of `extractSalaryFromDocument` carries, as its
reason string, one of the fixed internal messages, the message of the failed
external OCR call, reasoning call or `JSON.parse` passed through the
catch-all's `message || fallback` (so the raw message when it is non-empty,
the fixed fallback string when it is empty), or the model-supplied `error`
field; and the route returns any non-empty failure string verbatim as the
caller-visible message content. -/
theorem c5_failure_reason_propagation :
    (∀ (hasApiKey : Bool) (ocr : Except String (List Char))
      (reasoningModel : List Char → Except String (List Char))
      (jsonParse : List Char → Except String SalaryData) (e : String),
      (extractSalaryFromDocument hasApiKey ocr reasoningModel jsonParse).1 =
        ExtractResult.failure e →
      e = noKeyMsg ∨
      (∃ m, ocr = Except.error m ∧ e = orFallback m) ∨
      e = piiDetectedMsg ∨
      (∃ p m, reasoningModel p = Except.error m ∧ e = orFallback m) ∨
      e = noJsonMsg ∨
      (∃ j m, jsonParse j = Except.error m ∧ e = orFallback m) ∨
      (∃ j d, jsonParse j = Except.ok d ∧ d.error = some e)) ∧
    (∀ m : String, m ≠ "" → orFallback m = m) ∧
    orFallback "" = fallbackMsg ∧
    (∀ (fmt : ℚ → String) (e : String), e ≠ "" →
      routeFileContent fmt (.failure e) = e) := by
  refine ⟨?_, orFallback_ne, orFallback_empty, ?_⟩
  · intro hasApiKey ocr reasoningModel jsonParse e h
    unfold extractSalaryFromDocument at h
    split at h
    · simp at h
      rw [orFallback_key] at h
      exact Or.inl h.symm
    · split at h
      · rename_i m
        simp at h
        exact Or.inr (Or.inl ⟨m, rfl, h.symm⟩)
      · rename_i rawText
        split at h
        · simp at h
          rw [orFallback_pii] at h
          exact Or.inr (Or.inr (Or.inl h.symm))
        · split at h
          · rename_i m hrm
            simp at h
            exact Or.inr (Or.inr (Or.inr (Or.inl ⟨_, m, hrm, h.symm⟩)))
          · rename_i responseText hrm
            split at h
            · simp at h
              rw [orFallback_json] at h
              exact Or.inr (Or.inr (Or.inr (Or.inr (Or.inl h.symm))))
            · rename_i jsonStr hbs
              split at h
              · rename_i m hjp
                simp at h
                exact Or.inr (Or.inr (Or.inr (Or.inr (Or.inr
                  (Or.inl ⟨_, m, hjp, h.symm⟩)))))
              · rename_i extractedData hjp
                split at h
                · rename_i he
                  cases hse : extractedData.error with
                  | none => rw [hse] at he; simp [truthyS] at he
                  | some s =>
                      refine Or.inr (Or.inr (Or.inr (Or.inr (Or.inr (Or.inr
                        ⟨_, _, hjp, ?_⟩)))))
                      rw [hse] at h ⊢
                      simp at h
                      rw [h]
                · simp at h
  · intro fmt e he
    simp [routeFileContent, he]

/-- C5 witness: the enumeration at a concrete failing run whose OCR stage
throws with a non-empty message, the non-empty and empty cases of the
catch-all wrap, and the route propagation, via the theorem. -/
theorem c5_witness :
    ("boom" = noKeyMsg ∨
      (∃ m, (Except.error "boom" : Except String (List Char)) = Except.error m ∧
        "boom" = orFallback m) ∨
      "boom" = piiDetectedMsg ∨
      (∃ p m, (fun (_ : List Char) => (Except.ok [] : Except String (List Char))) p =
        Except.error m ∧ "boom" = orFallback m) ∨
      "boom" = noJsonMsg ∨
      (∃ j m, (fun (_ : List Char) =>
        (Except.error "x" : Except String SalaryData)) j = Except.error m ∧
        "boom" = orFallback m) ∨
      (∃ j d, (fun (_ : List Char) =>
        (Except.error "x" : Except String SalaryData)) j = Except.ok d ∧
        d.error = some "boom")) ∧
    orFallback "boom" = "boom" ∧
    orFallback "" = fallbackMsg ∧
    routeFileContent (fun _ => "") (.failure "boom") = "boom" :=
  ⟨c5_failure_reason_propagation.1 true (.error "boom") (fun _ => .ok [])
      (fun _ => .error "x") "boom" rfl,
    c5_failure_reason_propagation.2.1 "boom" (by decide),
    c5_failure_reason_propagation.2.2.1,
    c5_failure_reason_propagation.2.2.2 (fun _ => "") "boom" (by decide)⟩

/-- C5 counterexample: an OCR-stage throw with raw external error text is
returned as the failure reason — not one of the four taxonomy codes — and the
route hands exactly that raw text to the caller. -/
theorem c5_counterexample :
    (extractSalaryFromDocument true (.error "connect ECONNREFUSED 10.0.0.5:443")
      (fun _ => .ok []) (fun _ => .error "x")).1 =
      .failure "connect ECONNREFUSED 10.0.0.5:443" ∧
    routeFileContent (fun _ => "") (.failure "connect ECONNREFUSED 10.0.0.5:443") =
      "connect ECONNREFUSED 10.0.0.5:443" ∧
    "connect ECONNREFUSED 10.0.0.5:443" ≠ "ocr_unavailable" ∧
    "connect ECONNREFUSED 10.0.0.5:443" ≠ "pii_detected_after_scrub" ∧
    "connect ECONNREFUSED 10.0.0.5:443" ≠ "malformed_model_output" ∧
    "connect ECONNREFUSED 10.0.0.5:443" ≠ "not_a_salary_document" := by
  refine ⟨rfl, by decide, by decide, by decide, by decide, by decide⟩

/-- C6 counterexample: on a response holding two JSON objects, the source's
pattern extracts the span from the first opening to the last closing brace,
which differs from the first balanced JSON object substring the spec
prescribes. -/
theorem c6_counterexample :
    braceSpan ("prose \x7b\"a\":1\x7d and \x7b\"b\":2\x7d".data) =
      some ("\x7b\"a\":1\x7d and \x7b\"b\":2\x7d".data) ∧
    firstBalancedSpan ("prose \x7b\"a\":1\x7d and \x7b\"b\":2\x7d".data) =
      some ("\x7b\"a\":1\x7d".data) ∧
    ("\x7b\"a\":1\x7d and \x7b\"b\":2\x7d".data ≠ "\x7b\"a\":1\x7d".data) := by
  refine ⟨by decide, by decide, by decide⟩

/-- C6 (amended): the response parser takes the span from the first opening
brace to the last closing brace and hands exactly that substring to
`JSON.parse` (two parse oracles agreeing on that span give identical pipeline
results), and when the response contains no such span the pipeline fails with
the missing-JSON failure. -/
theorem c6_greedy_span_parsing :
    (∀ (ocr : Except String (List Char))
      (reasoningModel : List Char → Except String (List Char))
      (jsonParse : List Char → Except String SalaryData) (rawText r : List Char),
      ocr = Except.ok rawText → hasPII (redactPII rawText) = false →
      reasoningModel (buildPrompt (redactPII rawText)) = Except.ok r →
      braceSpan r = none →
      extractSalaryFromDocument true ocr reasoningModel jsonParse =
        (.failure noJsonMsg, true)) ∧
    (∀ (ocr : Except String (List Char))
      (reasoningModel : List Char → Except String (List Char))
      (jsonParse jsonParse2 : List Char → Except String SalaryData)
      (rawText r j : List Char),
      ocr = Except.ok rawText → hasPII (redactPII rawText) = false →
      reasoningModel (buildPrompt (redactPII rawText)) = Except.ok r →
      braceSpan r = some j → jsonParse j = jsonParse2 j →
      extractSalaryFromDocument true ocr reasoningModel jsonParse =
        extractSalaryFromDocument true ocr reasoningModel jsonParse2) := by
  constructor
  · intro ocr reasoningModel jsonParse rawText r hocr hg hrm hbs
    subst hocr
    simp only [extractSalaryFromDocument, Bool.not_true, Bool.false_eq_true, if_false,
      hg, if_false, hrm, hbs, orFallback_json]
  · intro ocr reasoningModel jsonParse jsonParse2 rawText r j hocr hg hrm hbs hagree
    subst hocr
    simp only [extractSalaryFromDocument, Bool.not_true, Bool.false_eq_true, if_false,
      hg, if_false, hrm, hbs, hagree]

/-- C6 witness: a gate-passing run whose model response has no brace span
fails with the missing-JSON message, via the theorem. -/
theorem c6_witness :
    extractSalaryFromDocument true (.ok "salary slip".data)
      (fun _ => .ok "no json here".data) (fun _ => .error "x") =
      (.failure noJsonMsg, true) :=
  c6_greedy_span_parsing.1 (.ok "salary slip".data) (fun _ => .ok "no json here".data)
    (fun _ => .error "x") "salary slip".data "no json here".data rfl (by decide) rfl
    (by decide)

/-- C7 counterexample: with `netSalary` present and equal to 0 and
`totalGrossSalary` 5000, the route's precedence chain skips the present zero
and picks 5000 — a present zero field is coerced away. -/
theorem c7_counterexample :
    chooseMonthlyIncome
      ⟨some 3000, none, none, [], some 5000, none, some 0, some "AED", none⟩ =
      some 5000 ∧
    (⟨some 3000, none, none, [], some 5000, none, some 0, some "AED",
      none⟩ : SalaryData).netSalary = some 0 ∧
    (some (5000 : ℚ) : Option ℚ) ≠ some 0 := by
  refine ⟨by decide, by decide, by decide⟩

/-- C7 (amended): the monthly-income scalar follows the precedence
netSalary, else totalGrossSalary, else basicSalary, but with zero (or absent)
fields treated as missing by the JS truthiness test; a present zero field is
indistinguishable from an absent one both in the precedence chain and in the
confirmation formatter, which enumerates only present non-zero fields; the
chosen scalar is what the route passes to the formatter and attaches as the
downstream income state. -/
theorem c7_income_precedence :
    (∀ (d : SalaryData) (v : ℚ), d.netSalary = some v → v ≠ 0 →
      chooseMonthlyIncome d = some v) ∧
    (∀ (d : SalaryData) (v : ℚ), truthyQ d.netSalary = false →
      d.totalGrossSalary = some v → v ≠ 0 → chooseMonthlyIncome d = some v) ∧
    (∀ d : SalaryData, truthyQ d.netSalary = false →
      truthyQ d.totalGrossSalary = false → chooseMonthlyIncome d = d.basicSalary) ∧
    (∀ d : SalaryData, d.netSalary = some 0 →
      chooseMonthlyIncome d = chooseMonthlyIncome { d with netSalary := none }) ∧
    (∀ d : SalaryData, d.totalGrossSalary = some 0 →
      chooseMonthlyIncome d = chooseMonthlyIncome { d with totalGrossSalary := none }) ∧
    (∀ (fmt : ℚ → String) (d : SalaryData) (m : Option ℚ), d.netSalary = some 0 →
      formatSalaryConfirmation fmt d m =
        formatSalaryConfirmation fmt { d with netSalary := none } m) ∧
    (∀ (fmt : ℚ → String) (d : SalaryData) (m : Option ℚ), d.basicSalary = some 0 →
      formatSalaryConfirmation fmt d m =
        formatSalaryConfirmation fmt { d with basicSalary := none } m) ∧
    (∀ (fmt : ℚ → String) (d : SalaryData),
      routeFileContent fmt (.success d) =
        formatSalaryConfirmation fmt d (chooseMonthlyIncome d) ∧
      routeFileIncome (.success d) = chooseMonthlyIncome d) := by
  refine ⟨?_, ?_, ?_, ?_, ?_, ?_, ?_, ?_⟩
  · intro d v hv hnz
    have htv : truthyQ (some v) = true := by simp [truthyQ, hnz]
    simp only [chooseMonthlyIncome, jsOrQ, hv, htv, if_true]
  · intro d v hnet hv hnz
    have htv : truthyQ (some v) = true := by simp [truthyQ, hnz]
    simp only [chooseMonthlyIncome, jsOrQ, hnet, hv, htv, Bool.false_eq_true, if_false,
      if_true]
  · intro d hnet hgross
    simp only [chooseMonthlyIncome, jsOrQ, hnet, hgross, Bool.false_eq_true, if_false]
  · intro d hv
    have h0 : truthyQ d.netSalary = false := by simp [truthyQ, hv]
    have h0' : truthyQ (none : Option ℚ) = false := by simp [truthyQ]
    simp only [chooseMonthlyIncome, jsOrQ, h0, h0', Bool.false_eq_true, if_false]
  · intro d hv
    have h0 : truthyQ d.totalGrossSalary = false := by simp [truthyQ, hv]
    have h0' : truthyQ (none : Option ℚ) = false := by simp [truthyQ]
    simp only [chooseMonthlyIncome, jsOrQ, h0, h0', Bool.false_eq_true, if_false]
  · intro fmt d m hv
    have h0 : truthyQ d.netSalary = false := by simp [truthyQ, hv]
    have h0' : truthyQ (none : Option ℚ) = false := by simp [truthyQ]
    simp only [formatSalaryConfirmation, h0, h0', Bool.false_eq_true, if_false]
  · intro fmt d m hv
    have h0 : truthyQ d.basicSalary = false := by simp [truthyQ, hv]
    have h0' : truthyQ (none : Option ℚ) = false := by simp [truthyQ]
    simp only [formatSalaryConfirmation, h0, h0', Bool.false_eq_true, if_false]
  · intro fmt d
    exact ⟨rfl, rfl⟩

/-- C7 witness: the precedence and the zero-equals-absent equations at
concrete records, via the theorem. -/
theorem c7_witness :
    chooseMonthlyIncome
      ⟨some 3000, none, none, [], some 5000, none, some 7000, none, none⟩ =
      some 7000 ∧
    chooseMonthlyIncome
      ⟨some 3000, none, none, [], some 5000, none, some 0, none, none⟩ =
      chooseMonthlyIncome
      { (⟨some 3000, none, none, [], some 5000, none, some 0, none,
        none⟩ : SalaryData) with netSalary := none } :=
  ⟨c7_income_precedence.1
      ⟨some 3000, none, none, [], some 5000, none, some 7000, none, none⟩ 7000 rfl
      (by norm_num),
    c7_income_precedence.2.2.2.1
      ⟨some 3000, none, none, [], some 5000, none, some 0, none, none⟩ rfl⟩

/-- C1: when the validation gate blocks the scrubbed OCR text,
`extractSalaryFromDocument` short-circuits with the PII-detection failure (the
pipeline's `pii_detected_after_scrub` outcome) and the reasoning-stage request
is never constructed or sent. -/
theorem c1_gate_blocks_reasoning (ocr : Except String (List Char))
    (reasoningModel : List Char → Except String (List Char))
    (jsonParse : List Char → Except String SalaryData) (rawText : List Char)
    (hocr : ocr = Except.ok rawText) (hgate : hasPII (redactPII rawText) = true) :
    extractSalaryFromDocument true ocr reasoningModel jsonParse =
      (.failure piiDetectedMsg, false) := by
  subst hocr
  simp only [extractSalaryFromDocument, Bool.not_true, Bool.false_eq_true, if_false,
    hgate, if_true, orFallback_pii]

/-- C1 witness: a concrete blocked run (scrubbed text `"AE12"` trips the
gate's IBAN check), via the theorem. -/
theorem c1_witness :
    hasPII (redactPII "AE12".data) = true ∧
    extractSalaryFromDocument true (.ok "AE12".data) (fun _ => .ok [])
      (fun _ => .error "x") = (.failure piiDetectedMsg, false) :=
  ⟨by decide,
    c1_gate_blocks_reasoning (.ok "AE12".data) (fun _ => .ok [])
      (fun _ => .error "x") "AE12".data rfl (by decide)⟩

/-! ## Matcher equations -/

theorem mres_cls_nil (f : Nat) (p : Char → Bool) (prev : Option Char) :
    mres f (.cls p) prev [] = [] := by cases f <;> rfl

theorem mres_cls_cons (f : Nat) (p : Char → Bool) (prev : Option Char) (c : Char)
    (r : List Char) :
    mres f (.cls p) prev (c :: r) = if p c then [(some c, r)] else [] := by
  cases f <;> rfl

theorem mres_eps (f : Nat) (prev : Option Char) (s : List Char) :
    mres f .eps prev s = [(prev, s)] := by cases f <;> rfl

theorem mres_wb (f : Nat) (prev : Option Char) (s : List Char) :
    mres f .wb prev s = if atBoundary prev s then [(prev, s)] else [] := by
  cases f <;> rfl

theorem mres_seq (f : Nat) (a b : Re) (prev : Option Char) (s : List Char) :
    mres f (.seq a b) prev s =
      (mres f a prev s).flatMap (fun pr => mres f b pr.1 pr.2) := by cases f <;> rfl

theorem mres_alt (f : Nat) (a b : Re) (prev : Option Char) (s : List Char) :
    mres f (.alt a b) prev s = mres f a prev s ++ mres f b prev s := by cases f <;> rfl

theorem mres_opt (f : Nat) (a : Re) (prev : Option Char) (s : List Char) :
    mres f (.opt a) prev s = mres f a prev s ++ [(prev, s)] := by cases f <;> rfl

theorem mres_star_succ (f : Nat) (a : Re) (prev : Option Char) (s : List Char) :
    mres (f + 1) (.star a) prev s =
      (mres (f + 1) a prev s).flatMap (fun pr => mres f (.star a) pr.1 pr.2) ++
        [(prev, s)] := rfl

theorem mres_star_zero (a : Re) (prev : Option Char) (s : List Char) :
    mres 0 (.star a) prev s =
      (mres 0 a prev s).flatMap (fun pr => [(pr.1, pr.2)]) ++ [(prev, s)] := rfl

/-! ## Suffix facts -/

theorem suffStates_self (prev : Option Char) (s : List Char) :
    (prev, s) ∈ suffStates prev s := by
  cases s <;> simp [suffStates]

theorem suffStates_tail (prev : Option Char) (c : Char) (r : List Char) :
    ∀ pr ∈ suffStates (some c) r, pr ∈ suffStates prev (c :: r) := by
  intro pr h
  simp only [suffStates, List.mem_cons]
  exact Or.inr h

theorem suffStates_sfx (prev : Option Char) (s : List Char) :
    ∀ pr ∈ suffStates prev s, pr.2 <:+ s := by
  induction s generalizing prev with
  | nil => intro pr h; simp [suffStates] at h; simp [h]
  | cons c r ih =>
      intro pr h
      simp only [suffStates, List.mem_cons] at h
      rcases h with h | h
      · simp [h]
      · exact (ih (some c) pr h).trans (List.suffix_cons c r)

theorem suffStates_split (u : List Char) :
    ∀ (prev : Option Char) (t : List Char),
      (olastD prev u, t) ∈ suffStates prev (u ++ t) := by
  induction u with
  | nil => intro prev t; exact suffStates_self prev t
  | cons c u ih =>
      intro prev t
      exact suffStates_tail prev c (u ++ t) _ (ih (some c) t)

theorem mres_sfx : ∀ (f : Nat) (re : Re) (prev : Option Char) (s : List Char)
    (pr : Option Char × List Char), pr ∈ mres f re prev s → pr.2 <:+ s := by
  intro f
  induction f with
  | zero =>
      intro re
      induction re with
      | cls p =>
          intro prev s pr h
          cases s with
          | nil => rw [mres_cls_nil] at h; simp at h
          | cons c r =>
              rw [mres_cls_cons] at h
              by_cases hc : p c
              · simp [hc] at h
                rw [h]
                exact List.suffix_cons c r
              · simp [hc] at h
      | eps =>
          intro prev s pr h
          rw [mres_eps] at h; simp at h
          rw [h]
      | wb =>
          intro prev s pr h
          rw [mres_wb] at h
          by_cases hb : atBoundary prev s
          · simp [hb] at h; rw [h]
          · simp [hb] at h
      | seq a b iha ihb =>
          intro prev s pr h
          rw [mres_seq] at h
          rw [List.mem_flatMap] at h
          obtain ⟨mid, hmid, hpr⟩ := h
          exact (ihb mid.1 mid.2 pr hpr).trans (iha prev s mid hmid)
      | alt a b iha ihb =>
          intro prev s pr h
          rw [mres_alt, List.mem_append] at h
          rcases h with h | h
          · exact iha prev s pr h
          · exact ihb prev s pr h
      | opt a iha =>
          intro prev s pr h
          rw [mres_opt, List.mem_append] at h
          rcases h with h | h
          · exact iha prev s pr h
          · simp at h; rw [h]
      | star a iha =>
          intro prev s pr h
          rw [mres_star_zero, List.mem_append] at h
          rcases h with h | h
          · rw [List.mem_flatMap] at h
            obtain ⟨mid, hmid, hpr⟩ := h
            simp at hpr
            rw [hpr]
            exact iha prev s mid hmid
          · simp at h; rw [h]
  | succ f ihf =>
      intro re
      induction re with
      | cls p =>
          intro prev s pr h
          cases s with
          | nil => rw [mres_cls_nil] at h; simp at h
          | cons c r =>
              rw [mres_cls_cons] at h
              by_cases hc : p c
              · simp [hc] at h
                rw [h]
                exact List.suffix_cons c r
              · simp [hc] at h
      | eps =>
          intro prev s pr h
          rw [mres_eps] at h; simp at h
          rw [h]
      | wb =>
          intro prev s pr h
          rw [mres_wb] at h
          by_cases hb : atBoundary prev s
          · simp [hb] at h; rw [h]
          · simp [hb] at h
      | seq a b iha ihb =>
          intro prev s pr h
          rw [mres_seq] at h
          rw [List.mem_flatMap] at h
          obtain ⟨mid, hmid, hpr⟩ := h
          exact (ihb mid.1 mid.2 pr hpr).trans (iha prev s mid hmid)
      | alt a b iha ihb =>
          intro prev s pr h
          rw [mres_alt, List.mem_append] at h
          rcases h with h | h
          · exact iha prev s pr h
          · exact ihb prev s pr h
      | opt a iha =>
          intro prev s pr h
          rw [mres_opt, List.mem_append] at h
          rcases h with h | h
          · exact iha prev s pr h
          · simp at h; rw [h]
      | star a iha =>
          intro prev s pr h
          rw [mres_star_succ, List.mem_append] at h
          rcases h with h | h
          · rw [List.mem_flatMap] at h
            obtain ⟨mid, hmid, hpr⟩ := h
            exact (ihf (.star a) mid.1 mid.2 pr hpr).trans (iha prev s mid hmid)
          · simp at h; rw [h]

theorem mres_minCnt {p : Char → Bool} {re : Re} {n : Nat} (hm : MinCnt p re n) :
    ∀ (f : Nat) (prev : Option Char) (s : List Char) (pr : Option Char × List Char),
      pr ∈ mres f re prev s → n + pr.2.countP p ≤ s.countP p := by
  induction hm with
  | @cls q hq =>
      intro f prev s pr h
      cases s with
      | nil => rw [mres_cls_nil] at h; simp at h
      | cons c r =>
          rw [mres_cls_cons] at h
          by_cases hc : q c = true
          · rw [if_pos hc] at h
            simp at h
            rw [h]
            show 1 + r.countP p ≤ (c :: r).countP p
            have hcc : (c :: r).countP p = r.countP p + 1 :=
              List.countP_cons_of_pos _ _ (hq c hc)
            omega
          · rw [if_neg hc] at h
            simp at h
  | clsZero q =>
      intro f prev s pr h
      have := (mres_sfx f _ prev s pr h).sublist.countP_le p
      omega
  | eps =>
      intro f prev s pr h
      rw [mres_eps] at h; simp at h
      rw [h]
      show 0 + s.countP p ≤ s.countP p
      omega
  | wb =>
      intro f prev s pr h
      have := (mres_sfx f _ prev s pr h).sublist.countP_le p
      omega
  | @seq a b m n ha hb iha ihb =>
      intro f prev s pr h
      rw [mres_seq, List.mem_flatMap] at h
      obtain ⟨mid, hmid, hpr⟩ := h
      have h1 := iha f prev s mid hmid
      have h2 := ihb f mid.1 mid.2 pr hpr
      omega
  | @alt a b m n ha hb iha ihb =>
      intro f prev s pr h
      rw [mres_alt, List.mem_append] at h
      have hm1 : min m n ≤ m := Nat.min_le_left m n
      have hm2 : min m n ≤ n := Nat.min_le_right m n
      rcases h with h | h
      · have := iha f prev s pr h
        omega
      · have := ihb f prev s pr h
        omega
  | opt a =>
      intro f prev s pr h
      have := (mres_sfx f _ prev s pr h).sublist.countP_le p
      omega
  | star a =>
      intro f prev s pr h
      have := (mres_sfx f _ prev s pr h).sublist.countP_le p
      omega

theorem mres_eq_nil_of_count {p : Char → Bool} {re : Re} {n : Nat}
    (hm : MinCnt p re n) (f : Nat) (prev : Option Char) (s : List Char)
    (hc : s.countP p < n) : mres f re prev s = [] := by
  by_contra hne
  obtain ⟨pr, hpr⟩ := List.exists_mem_of_ne_nil _ hne
  have := mres_minCnt hm f prev s pr hpr
  omega

/-! ## Replacement lemmas -/

theorem replAux_nil (re : Re) (rep : List Char) (f : Nat) (prev : Option Char) :
    replAux re rep (f + 1) prev [] = [] := rfl

theorem replaceAll_full (re : Re) (rep tok : List Char) (last : Option Char)
    (hne : tok ≠ []) (h : firstMatch re none tok = some (last, [])) :
    replaceAll re rep tok = rep := by
  cases tok with
  | nil => exact absurd rfl hne
  | cons c r =>
      show replAux re rep (r.length + 1 + 1) none (c :: r) = rep
      unfold replAux
      rw [h]
      simp [replAux_nil]

theorem replAux_id (re : Re) (rep : List Char) :
    ∀ (f : Nat) (prev : Option Char) (s : List Char),
      (∀ pr ∈ suffStates prev s, firstMatch re pr.1 pr.2 = none) →
      replAux re rep f prev s = s := by
  intro f
  induction f with
  | zero => intro prev s _; rfl
  | succ f ih =>
      intro prev s h
      cases s with
      | nil => rfl
      | cons c r =>
          have h0 : firstMatch re prev (c :: r) = none :=
            h (prev, c :: r) (suffStates_self prev (c :: r))
          show replAux re rep (f + 1) prev (c :: r) = c :: r
          unfold replAux
          rw [h0]
          exact congrArg (c :: ·)
            (ih (some c) r (fun pr hpr => h pr (suffStates_tail prev c r pr hpr)))

theorem replaceAll_id (re : Re) (rep s : List Char)
    (h : ∀ pr ∈ suffStates none s, mres (pr.2.length + 1) re pr.1 pr.2 = []) :
    replaceAll re rep s = s := by
  apply replAux_id
  intro pr hpr
  unfold firstMatch
  rw [h pr hpr]
  rfl

theorem replaceAll_count_id {p : Char → Bool} {re : Re} {n : Nat}
    (hm : MinCnt p re n) (rep s : List Char) (hc : s.countP p < n) :
    replaceAll re rep s = s := by
  apply replaceAll_id
  intro pr hpr
  apply mres_eq_nil_of_count hm
  have := (suffStates_sfx none s pr hpr).sublist.countP_le p
  omega

theorem replaceAll_eq_self_of_not_search (re : Re) (rep s : List Char)
    (h : searchRe re s = false) : replaceAll re rep s = s := by
  apply replaceAll_id
  intro pr hpr
  unfold searchRe at h
  rw [List.any_eq_false] at h
  have := h pr hpr
  simp at this
  exact this

theorem searchRe_of_state (re : Re) (s : List Char) (pr : Option Char × List Char)
    (hmem : pr ∈ suffStates none s)
    (hne : mres (pr.2.length + 1) re pr.1 pr.2 ≠ []) : searchRe re s = true := by
  unfold searchRe
  rw [List.any_eq_true]
  refine ⟨pr, hmem, ?_⟩
  simpa using hne

theorem searchRe_false_of_count {p : Char → Bool} {re : Re} {n : Nat}
    (hm : MinCnt p re n) (s : List Char) (hn : 0 < n) (hc : s.countP p = 0) :
    searchRe re s = false := by
  unfold searchRe
  rw [List.any_eq_false]
  intro pr hpr
  have hle := (suffStates_sfx none s pr hpr).sublist.countP_le p
  rw [mres_eq_nil_of_count hm _ _ _ (by omega)]
  simp

/-! ## Membership introduction -/

theorem mem_mres_cls {p : Char → Bool} {c : Char} (f : Nat) (prev : Option Char)
    (r : List Char) (h : p c = true) :
    (some c, r) ∈ mres f (.cls p) prev (c :: r) := by
  rw [mres_cls_cons, if_pos h]
  simp

theorem mem_mres_eps (f : Nat) (prev : Option Char) (s : List Char) :
    (prev, s) ∈ mres f .eps prev s := by
  rw [mres_eps]; simp

theorem mem_mres_wb (f : Nat) (prev : Option Char) (s : List Char)
    (h : atBoundary prev s = true) : (prev, s) ∈ mres f .wb prev s := by
  rw [mres_wb, if_pos h]; simp

theorem mem_mres_seq {f : Nat} {a b : Re} {prev : Option Char} {s : List Char}
    {mid pr : Option Char × List Char} (h1 : mid ∈ mres f a prev s)
    (h2 : pr ∈ mres f b mid.1 mid.2) : pr ∈ mres f (.seq a b) prev s := by
  rw [mres_seq, List.mem_flatMap]
  exact ⟨mid, h1, h2⟩

theorem mem_mres_alt_left {f : Nat} {a b : Re} {prev : Option Char} {s : List Char}
    {pr : Option Char × List Char} (h : pr ∈ mres f a prev s) :
    pr ∈ mres f (.alt a b) prev s := by
  rw [mres_alt, List.mem_append]; exact Or.inl h

theorem mem_mres_alt_right {f : Nat} {a b : Re} {prev : Option Char} {s : List Char}
    {pr : Option Char × List Char} (h : pr ∈ mres f b prev s) :
    pr ∈ mres f (.alt a b) prev s := by
  rw [mres_alt, List.mem_append]; exact Or.inr h

theorem mem_mres_opt_of {f : Nat} {a : Re} {prev : Option Char} {s : List Char}
    {pr : Option Char × List Char} (h : pr ∈ mres f a prev s) :
    pr ∈ mres f (.opt a) prev s := by
  rw [mres_opt, List.mem_append]; exact Or.inl h

theorem mem_mres_opt_skip (f : Nat) (a : Re) (prev : Option Char) (s : List Char) :
    (prev, s) ∈ mres f (.opt a) prev s := by
  rw [mres_opt, List.mem_append]; right; simp

theorem mem_mres_star_skip (f : Nat) (a : Re) (prev : Option Char) (s : List Char) :
    (prev, s) ∈ mres f (.star a) prev s := by
  cases f with
  | zero => rw [mres_star_zero, List.mem_append]; right; simp
  | succ f => rw [mres_star_succ, List.mem_append]; right; simp

theorem mem_mres_star_cons {f : Nat} {a : Re} {prev : Option Char} {s : List Char}
    {mid pr : Option Char × List Char} (h1 : mid ∈ mres (f + 1) a prev s)
    (h2 : pr ∈ mres f (.star a) mid.1 mid.2) : pr ∈ mres (f + 1) (.star a) prev s := by
  rw [mres_star_succ, List.mem_append]
  exact Or.inl (List.mem_flatMap.mpr ⟨mid, h1, h2⟩)

theorem mem_reN_run {p : Char → Bool} :
    ∀ (u : List Char) (f : Nat) (prev : Option Char) (rest : List Char),
      (∀ c ∈ u, p c = true) →
      (olastD prev u, rest) ∈ mres f (reN u.length (.cls p)) prev (u ++ rest) := by
  intro u
  induction u with
  | nil =>
      intro f prev rest _
      exact mem_mres_eps f prev rest
  | cons c u ih =>
      intro f prev rest hall
      exact mem_mres_seq (mem_mres_cls f prev (u ++ rest) (hall c (by simp)))
        (ih f (some c) rest (fun x hx => hall x (by simp [hx])))

theorem mem_star_run {p : Char → Bool} :
    ∀ (u : List Char) (f : Nat) (prev : Option Char) (rest : List Char),
      u.length < f → (∀ c ∈ u, p c = true) →
      (olastD prev u, rest) ∈ mres f (.star (.cls p)) prev (u ++ rest) := by
  intro u
  induction u with
  | nil => intro f prev rest _ _; exact mem_mres_star_skip f _ prev rest
  | cons c u ih =>
      intro f prev rest hf hall
      cases f with
      | zero => omega
      | succ f =>
          exact mem_mres_star_cons (mem_mres_cls (f + 1) prev (u ++ rest)
              (hall c (by simp)))
            (ih f (some c) rest (by simp at hf; omega)
              (fun x hx => hall x (by simp [hx])))

theorem mem_upTo_run {p : Char → Bool} :
    ∀ (u : List Char) (k f : Nat) (prev : Option Char) (rest : List Char),
      u.length ≤ k → (∀ c ∈ u, p c = true) →
      (olastD prev u, rest) ∈ mres f (upTo k (.cls p)) prev (u ++ rest) := by
  intro u
  induction u with
  | nil =>
      intro k f prev rest _ _
      cases k with
      | zero => exact mem_mres_eps f prev rest
      | succ k => exact mem_mres_opt_skip f _ prev rest
  | cons c u ih =>
      intro k f prev rest hk hall
      cases k with
      | zero => simp at hk
      | succ k =>
          apply mem_mres_opt_of
          exact mem_mres_seq (mem_mres_cls f prev (u ++ rest) (hall c (by simp)))
            (ih k f (some c) rest (by simp at hk; omega)
              (fun x hx => hall x (by simp [hx])))

/-! ## Deterministic runs -/

theorem mres_reN_run_eq {p : Char → Bool} :
    ∀ (u : List Char) (f : Nat) (prev : Option Char) (rest : List Char),
      (∀ c ∈ u, p c = true) →
      mres f (reN u.length (.cls p)) prev (u ++ rest) = [(olastD prev u, rest)] := by
  intro u
  induction u with
  | nil => intro f prev rest _; exact mres_eps f prev rest
  | cons c u ih =>
      intro f prev rest hall
      show mres f (.seq (.cls p) (reN u.length (.cls p))) prev (c :: (u ++ rest)) = _
      rw [mres_seq, mres_cls_cons, if_pos (hall c (by simp))]
      simp only [List.flatMap_cons, List.flatMap_nil, List.append_nil]
      exact ih f (some c) rest (fun x hx => hall x (by simp [hx]))

theorem mres_reN_fail {p : Char → Bool} (n f : Nat) (prev : Option Char)
    (s : List Char) (h : ∀ c, headO s = some c → p c = false) :
    mres f (reN (n + 1) (.cls p)) prev s = [] := by
  show mres f (.seq (.cls p) (reN n (.cls p))) prev s = []
  rw [mres_seq]
  cases s with
  | nil => rw [mres_cls_nil]; rfl
  | cons c r =>
      rw [mres_cls_cons, if_neg (by simp [h c rfl])]
      rfl

theorem starSplits_ne_nil (prev : Option Char) (u rest : List Char) :
    starSplits prev u rest ≠ [] := by
  cases u with
  | nil => simp [starSplits]
  | cons c u => simp [starSplits]

theorem mres_star_cls_eq {p : Char → Bool} :
    ∀ (u : List Char) (f : Nat) (prev : Option Char) (rest : List Char),
      u.length < f → (∀ c ∈ u, p c = true) →
      (∀ c, headO rest = some c → p c = false) →
      mres f (.star (.cls p)) prev (u ++ rest) = starSplits prev u rest := by
  intro u
  induction u with
  | nil =>
      intro f prev rest _ _ hrest
      rw [List.nil_append]
      have hcls : ∀ f', mres f' (.cls p) prev rest = [] := by
        intro f'
        cases rest with
        | nil => exact mres_cls_nil f' p prev
        | cons c r => rw [mres_cls_cons, if_neg (by simp [hrest c rfl])]
      cases f with
      | zero => rw [mres_star_zero, hcls]; rfl
      | succ f => rw [mres_star_succ, hcls]; rfl
  | cons c u ih =>
      intro f prev rest hf hall hrest
      cases f with
      | zero => simp at hf
      | succ f =>
          show mres (f + 1) (.star (.cls p)) prev (c :: (u ++ rest)) = _
          rw [mres_star_succ, mres_cls_cons, if_pos (hall c (by simp))]
          simp only [List.flatMap_cons, List.flatMap_nil, List.append_nil]
          rw [ih f (some c) rest (by simp at hf; omega)
            (fun x hx => hall x (by simp [hx])) hrest]
          rfl

theorem mres_upTo_eq {p : Char → Bool} :
    ∀ (u : List Char) (k f : Nat) (prev : Option Char) (rest : List Char),
      u.length ≤ k → (∀ c ∈ u, p c = true) →
      (∀ c, headO rest = some c → p c = false) →
      mres f (upTo k (.cls p)) prev (u ++ rest) = starSplits prev u rest := by
  intro u
  induction u with
  | nil =>
      intro k f prev rest _ _ hrest
      cases k with
      | zero => exact mres_eps f prev rest
      | succ k =>
          show mres f (.opt (.seq (.cls p) (upTo k (.cls p)))) prev rest = _
          rw [mres_opt, mres_seq]
          have hcls : mres f (.cls p) prev rest = [] := by
            cases rest with
            | nil => exact mres_cls_nil f p prev
            | cons c r => rw [mres_cls_cons, if_neg (by simp [hrest c rfl])]
          rw [hcls]
          rfl
  | cons c u ih =>
      intro k f prev rest hk hall hrest
      cases k with
      | zero => simp at hk
      | succ k =>
          show mres f (.opt (.seq (.cls p) (upTo k (.cls p)))) prev (c :: (u ++ rest)) = _
          rw [mres_opt, mres_seq, mres_cls_cons, if_pos (hall c (by simp))]
          simp only [List.flatMap_cons, List.flatMap_nil, List.append_nil]
          rw [ih k f (some c) rest (by simp at hk; omega)
            (fun x hx => hall x (by simp [hx])) hrest]
          rfl

/-! ## Enumeration helpers -/

theorem flatMap_nil_of_all {α β : Type} (l : List α) (g : α → List β)
    (h : ∀ x ∈ l, g x = []) : l.flatMap g = [] := by
  induction l with
  | nil => rfl
  | cons x l ih =>
      rw [List.flatMap_cons, h x (by simp), List.nil_append]
      exact ih (fun y hy => h y (by simp [hy]))

theorem starSplits_mem_char :
    ∀ (u : List Char) (prev : Option Char) (rest : List Char)
      (pr : Option Char × List Char), pr ∈ starSplits prev u rest →
      ∃ u₁ u₂, u = u₁ ++ u₂ ∧ pr = (olastD prev u₁, u₂ ++ rest) := by
  intro u
  induction u with
  | nil =>
      intro prev rest pr h
      simp [starSplits] at h
      exact ⟨[], [], rfl, by simp [h, olastD]⟩
  | cons c u ih =>
      intro prev rest pr h
      rw [starSplits, List.mem_append] at h
      rcases h with h | h
      · obtain ⟨u₁, u₂, hu, hpr⟩ := ih (some c) rest pr h
        exact ⟨c :: u₁, u₂, by simp [hu], by simp [olastD, hpr]⟩
      · simp at h
        exact ⟨[], c :: u, rfl, by simp [olastD, h]⟩

theorem flatMap_starSplits_full
    {g : Option Char × List Char → List (Option Char × List Char)} :
    ∀ (u : List Char) (prev : Option Char) (rest : List Char),
      (∀ pr ∈ starSplits prev u rest, pr.2 ≠ rest → g pr = []) →
      (starSplits prev u rest).flatMap g = g (olastD prev u, rest) := by
  intro u
  induction u with
  | nil =>
      intro prev rest _
      simp [starSplits, olastD]
  | cons c u ih =>
      intro prev rest h
      rw [starSplits, List.flatMap_append]
      have h2 : g (prev, c :: u ++ rest) = [] := by
        apply h (prev, c :: u ++ rest)
        · rw [starSplits, List.mem_append]; right; simp
        · intro heq
          have := congrArg List.length heq
          simp at this
          omega
      rw [List.flatMap_cons, List.flatMap_nil, h2]
      rw [ih (some c) rest (fun pr hpr hne =>
        h pr (by rw [starSplits, List.mem_append]; exact Or.inl hpr) hne)]
      simp [olastD]

theorem tail_append_singleton {α : Type} (l : List α) (x : α) (h : l ≠ []) :
    (l ++ [x]).tail = l.tail ++ [x] := by
  cases l with
  | nil => exact absurd rfl h
  | cons a l => rfl

theorem starSplits_append :
    ∀ (u₁ : List Char) (prev : Option Char) (u₂ rest : List Char),
      starSplits prev (u₁ ++ u₂) rest =
        starSplits (olastD prev u₁) u₂ rest ++
          (starSplits prev u₁ (u₂ ++ rest)).tail := by
  intro u₁
  induction u₁ with
  | nil => intro prev u₂ rest; simp [starSplits, olastD]
  | cons c u₁ ih =>
      intro prev u₂ rest
      show starSplits prev (c :: (u₁ ++ u₂)) rest = _
      rw [starSplits, ih (some c) u₂ rest]
      rw [show starSplits prev (c :: u₁) (u₂ ++ rest) =
        starSplits (some c) u₁ (u₂ ++ rest) ++ [(prev, c :: u₁ ++ (u₂ ++ rest))] from rfl]
      rw [tail_append_singleton _ _ (starSplits_ne_nil _ _ _)]
      simp [olastD, List.append_assoc]

theorem starSplits_tail_mem :
    ∀ (u : List Char) (prev : Option Char) (rest : List Char)
      (pr : Option Char × List Char), pr ∈ (starSplits prev u rest).tail →
      ∃ c u₁ u₂, u = u₁ ++ c :: u₂ ∧ pr = (olastD prev u₁, c :: u₂ ++ rest) := by
  intro u
  induction u with
  | nil => intro prev rest pr h; simp [starSplits] at h
  | cons c u ih =>
      intro prev rest pr h
      rw [starSplits, tail_append_singleton _ _ (starSplits_ne_nil _ _ _),
        List.mem_append] at h
      rcases h with h | h
      · obtain ⟨c', u₁, u₂, hu, hpr⟩ := ih (some c) rest pr h
        exact ⟨c', c :: u₁, u₂, by simp [hu], by simp [olastD, hpr]⟩
      · simp at h
        exact ⟨c, [], u, rfl, by simp [olastD, h]⟩

/-! ## Character facts -/

theorem dchar_isDigit : ∀ d : Fin 10, (dchar d).isDigit = true := by decide

theorem dchar_word : ∀ d : Fin 10, isWordChar (dchar d) = true := by decide

theorem dchar_not_upper : ∀ d : Fin 10, isUpperAZ (dchar d) = false := by decide

theorem dchar_not_space : ∀ d : Fin 10, isSpaceJS (dchar d) = false := by decide

theorem dchar_not_eidsep : ∀ d : Fin 10, isEidSep (dchar d) = false := by decide

theorem dchar_ne_at : ∀ d : Fin 10, (decide (dchar d = '@')) = false := by decide

theorem dchar_not_ci_i :
    ∀ d : Fin 10, (decide ((dchar d).toLower = 'I'.toLower)) = false := by decide

theorem dchar_not_ci_b :
    ∀ d : Fin 10, (decide ((dchar d).toLower = 'B'.toLower)) = false := by decide

theorem dchar_not_ci_a :
    ∀ d : Fin 10, (decide ((dchar d).toLower = 'A'.toLower)) = false := by decide

theorem uchar_word : ∀ u : Fin 26, isWordChar (uchar u) = true := by decide

theorem uchar_upper : ∀ u : Fin 26, isUpperAZ (uchar u) = true := by decide

theorem uchar_not_digit : ∀ u : Fin 26, (uchar u).isDigit = false := by decide

theorem uchar_ci_i :
    ∀ u : Fin 26, (decide ((uchar u).toLower = 'I'.toLower)) = true → uchar u = 'I' := by
  decide

theorem uchar_ci_b :
    ∀ u : Fin 26, (decide ((uchar u).toLower = 'B'.toLower)) = true → uchar u = 'B' := by
  decide

theorem lchar_word : ∀ l : Fin 26, isWordChar (lchar l) = true := by decide

theorem lchar_not_digit : ∀ l : Fin 26, (lchar l).isDigit = false := by decide

theorem lchar_isLocal : ∀ l : Fin 26, isLocalChar (lchar l) = true := by decide

theorem lchar_isDom : ∀ l : Fin 26, isDomChar (lchar l) = true := by decide

theorem lchar_isTld : ∀ l : Fin 26, isTldChar (lchar l) = true := by decide

theorem lchar_isAlpha : ∀ l : Fin 26, isAlphaAZ (lchar l) = true := by decide

theorem lchar_not_upper : ∀ l : Fin 26, isUpperAZ (lchar l) = false := by decide

theorem lchar_ciIban : ∀ l : Fin 26, isCIiban (lchar l) = true := by decide

theorem uchar_ciIban : ∀ u : Fin 26, isCIiban (uchar u) = true := by decide

theorem dchar_not_ciIban : ∀ d : Fin 10, isCIiban (dchar d) = false := by decide

theorem uchar_ne_at : ∀ u : Fin 26, (decide (uchar u = '@')) = false := by decide

theorem lchar_ne_at : ∀ l : Fin 26, (decide (lchar l = '@')) = false := by decide

theorem lchar_ne_dot : ∀ l : Fin 26, (decide (lchar l = '.')) = false := by decide

theorem spaceJS_cases (c : Char) (h : isSpaceJS c = true) :
    c = ' ' ∨ c = '\t' ∨ c = '\n' ∨ c = '\r' ∨ c = '\x0b' ∨ c = '\x0c' := by
  unfold isSpaceJS at h
  simp at h
  tauto

theorem spaceJS_not_word (c : Char) (h : isSpaceJS c = true) : isWordChar c = false := by
  rcases spaceJS_cases c h with rfl | rfl | rfl | rfl | rfl | rfl <;> decide

theorem spaceJS_not_digit (c : Char) (h : isSpaceJS c = true) :
    Char.isDigit c = false := by
  rcases spaceJS_cases c h with rfl | rfl | rfl | rfl | rfl | rfl <;> decide

theorem eidSep_not_word (c : Char) (h : isEidSep c = true) : isWordChar c = false := by
  unfold isEidSep at h
  rcases Bool.or_eq_true_iff.mp h with h | h
  · rw [of_decide_eq_true h]; decide
  · exact spaceJS_not_word c h

theorem eidSep_not_digit (c : Char) (h : isEidSep c = true) :
    Char.isDigit c = false := by
  unfold isEidSep at h
  rcases Bool.or_eq_true_iff.mp h with h | h
  · rw [of_decide_eq_true h]; decide
  · exact spaceJS_not_digit c h

/-! ## Count derivations for the patterns -/

theorem minCnt_of_eq {p : Char → Bool} {re : Re} {n m : Nat}
    (h : MinCnt p re n) (e : n = m) : MinCnt p re m := e ▸ h

theorem minCnt_reN {p q : Char → Bool} (h : ∀ c, q c = true → p c = true) :
    ∀ n : Nat, MinCnt p (reN n (.cls q)) n := by
  intro n
  induction n with
  | zero => exact MinCnt.eps
  | succ n ih =>
      exact minCnt_of_eq (MinCnt.seq (MinCnt.cls h) ih) (by omega)

theorem litDigit {c₀ : Char} (h : c₀.isDigit = true) :
    ∀ c : Char, (decide (c = c₀)) = true → c.isDigit = true := by
  intro c hc
  rw [of_decide_eq_true hc]
  exact h

theorem minCnt_reN_zero (p q : Char → Bool) :
    ∀ n : Nat, MinCnt p (reN n (.cls q)) 0 := by
  intro n
  induction n with
  | zero => exact MinCnt.eps
  | succ n ih => exact minCnt_of_eq (MinCnt.seq (MinCnt.clsZero q) ih) rfl

theorem cntD_iban1 : MinCnt Char.isDigit iban1Re 21 := by
  exact minCnt_of_eq
    (MinCnt.seq MinCnt.wb (MinCnt.seq (MinCnt.clsZero _) (MinCnt.seq
      (MinCnt.clsZero _) (MinCnt.seq (minCnt_reN (fun _ h => h) 2) (MinCnt.seq
      (MinCnt.opt _) (MinCnt.seq (minCnt_reN (fun _ h => h) 4) (MinCnt.seq
      (MinCnt.opt _) (MinCnt.seq (minCnt_reN (fun _ h => h) 4) (MinCnt.seq
      (MinCnt.opt _) (MinCnt.seq (minCnt_reN (fun _ h => h) 4) (MinCnt.seq
      (MinCnt.opt _) (MinCnt.seq (minCnt_reN (fun _ h => h) 4) (MinCnt.seq
      (MinCnt.opt _) (MinCnt.seq (minCnt_reN (fun _ h => h) 3) MinCnt.wb))))))))))))))
    (by decide)

theorem cntD_iban2 : MinCnt Char.isDigit iban2Re 2 := by
  exact minCnt_of_eq
    (MinCnt.seq MinCnt.wb (MinCnt.seq (MinCnt.clsZero _) (MinCnt.seq
      (MinCnt.clsZero _) (MinCnt.seq (MinCnt.clsZero _) (MinCnt.seq
      (MinCnt.clsZero _) (MinCnt.seq (MinCnt.star _) (MinCnt.seq
      (minCnt_reN_zero _ _ 2) (MinCnt.seq (minCnt_reN (fun _ h => h) 2) (MinCnt.seq
      (MinCnt.seq (MinCnt.clsZero _) (MinCnt.star _)) MinCnt.wb)))))))))
    (by decide)

theorem cntD_passport : MinCnt Char.isDigit passportRe 6 := by
  exact minCnt_of_eq
    (MinCnt.seq MinCnt.wb (MinCnt.seq (MinCnt.clsZero _) (MinCnt.seq
      (MinCnt.opt _) (MinCnt.seq (minCnt_reN (fun _ h => h) 6) (MinCnt.seq
      (MinCnt.opt _) MinCnt.wb)))))
    (by decide)

theorem cntU_passport : MinCnt isUpperAZ passportRe 1 := by
  exact minCnt_of_eq
    (MinCnt.seq MinCnt.wb (MinCnt.seq (MinCnt.cls (fun _ h => h)) (MinCnt.seq
      (MinCnt.opt _) (MinCnt.seq (minCnt_reN_zero _ _ 6) (MinCnt.seq
      (MinCnt.opt _) MinCnt.wb)))))
    (by decide)

theorem cntD_eid : MinCnt Char.isDigit eidRe 15 := by
  exact minCnt_of_eq
    (MinCnt.seq MinCnt.wb (MinCnt.seq (MinCnt.cls (litDigit (by decide)))
      (MinCnt.seq (MinCnt.cls (litDigit (by decide))) (MinCnt.seq
      (MinCnt.cls (litDigit (by decide))) (MinCnt.seq (MinCnt.opt _) (MinCnt.seq
      (minCnt_reN (fun _ h => h) 4) (MinCnt.seq (MinCnt.opt _) (MinCnt.seq
      (minCnt_reN (fun _ h => h) 7) (MinCnt.seq (MinCnt.opt _) (MinCnt.seq
      (MinCnt.cls (fun _ h => h)) MinCnt.wb))))))))))
    (by decide)

theorem cntAt_email : MinCnt (fun c => c = '@') emailRe 1 := by
  exact minCnt_of_eq
    (MinCnt.seq MinCnt.wb (MinCnt.seq (MinCnt.seq (MinCnt.clsZero _)
      (MinCnt.star _)) (MinCnt.seq (MinCnt.cls (fun _ h => h)) (MinCnt.seq
      (MinCnt.seq (MinCnt.clsZero _) (MinCnt.star _)) (MinCnt.seq
      (MinCnt.clsZero _) (MinCnt.seq (minCnt_reN_zero _ _ 2) (MinCnt.seq
      (MinCnt.star _) MinCnt.wb)))))))
    (by decide)

theorem cntD_phone1 : MinCnt Char.isDigit phone1Re 9 := by
  exact minCnt_of_eq
    (MinCnt.seq MinCnt.wb (MinCnt.seq (MinCnt.opt _) (MinCnt.seq
      (MinCnt.cls (litDigit (by decide))) (MinCnt.seq
      (minCnt_reN (fun _ h => h) 8) MinCnt.wb))))
    (by decide)

theorem cntD_phone2 : MinCnt Char.isDigit phone2Re 10 := by
  exact minCnt_of_eq
    (MinCnt.seq MinCnt.wb (MinCnt.seq (MinCnt.opt _) (MinCnt.seq
      (MinCnt.opt _) (MinCnt.seq (minCnt_reN (fun _ h => h) 3) (MinCnt.seq
      (MinCnt.opt _) (MinCnt.seq (MinCnt.opt _) (MinCnt.seq
      (minCnt_reN (fun _ h => h) 3) (MinCnt.seq (MinCnt.opt _) (MinCnt.seq
      (minCnt_reN (fun _ h => h) 4) MinCnt.wb)))))))))
    (by decide)

theorem cntD_gateIban : MinCnt Char.isDigit gateIbanRe 2 := by
  exact minCnt_of_eq
    (MinCnt.seq (MinCnt.clsZero _) (MinCnt.seq (MinCnt.clsZero _)
      (MinCnt.seq (MinCnt.cls (fun _ h => h)) (MinCnt.cls (fun _ h => h)))))
    (by decide)

theorem cntD_gatePhone : MinCnt Char.isDigit gatePhoneRe 3 := by
  exact minCnt_of_eq
    (MinCnt.alt
      (MinCnt.seq (MinCnt.clsZero _) (MinCnt.seq (MinCnt.cls (litDigit (by decide)))
        (MinCnt.seq (MinCnt.cls (litDigit (by decide)))
          (MinCnt.cls (litDigit (by decide))))))
      (MinCnt.seq MinCnt.wb (MinCnt.seq (MinCnt.cls (litDigit (by decide)))
        (MinCnt.seq (MinCnt.cls (litDigit (by decide))) (MinCnt.seq
          (minCnt_reN (fun _ h => h) 8) MinCnt.wb)))))
    (by decide)

theorem cntAt_gateEmail : MinCnt (fun c => c = '@') gateEmailRe 1 := by
  exact minCnt_of_eq
    (MinCnt.seq MinCnt.wb (MinCnt.seq (MinCnt.seq (MinCnt.clsZero _)
      (MinCnt.star _)) (MinCnt.seq (MinCnt.cls (fun _ h => h)) (MinCnt.seq
      (MinCnt.seq (MinCnt.clsZero _) (MinCnt.star _)) (MinCnt.seq
      (MinCnt.clsZero _) (MinCnt.seq (minCnt_reN_zero _ _ 2) (MinCnt.seq
      (MinCnt.star _) MinCnt.wb)))))))
    (by decide)

/-! ## Token counting -/

theorem countP_map_zero {α : Type} (p : Char → Bool) (f : α → Char)
    (h : ∀ a, p (f a) = false) : ∀ l : List α, (l.map f).countP p = 0 := by
  intro l
  induction l with
  | nil => rfl
  | cons a l ih => simp [List.countP_cons, h a, ih]

theorem countP_map_len {α : Type} (p : Char → Bool) (f : α → Char)
    (h : ∀ a, p (f a) = true) : ∀ l : List α, (l.map f).countP p = l.length := by
  intro l
  induction l with
  | nil => rfl
  | cons a l ih => simp [List.countP_cons, h a, ih]

theorem countP_sep_zero {psep : Char → Bool} (sp : List Char) (h : SepOpt psep sp)
    (p : Char → Bool) (hp : ∀ c, psep c = true → p c = false) : sp.countP p = 0 := by
  rcases h with rfl | ⟨c, hc, rfl⟩
  · rfl
  · simp [List.countP_cons, hp c hc]

/-! ## Deterministic stepping for the consuming passes -/

theorem mres_seq_single {f : Nat} {a b : Re} {prev : Option Char} {s : List Char}
    {mid : Option Char × List Char} (h : mres f a prev s = [mid]) :
    mres f (.seq a b) prev s = mres f b mid.1 mid.2 := by
  rw [mres_seq, h]
  simp

theorem olastD_append (prev : Option Char) (u v : List Char) :
    olastD prev (u ++ v) = olastD (olastD prev u) v := by
  induction u generalizing prev with
  | nil => rfl
  | cons c u ih => simp only [List.cons_append, olastD]; exact ih (some c)

theorem olastD_map_dchar (prev : Option Char) (l : List (Fin 10)) (h : l ≠ []) :
    ∃ d : Fin 10, olastD prev (l.map dchar) = some (dchar d) := by
  induction l generalizing prev with
  | nil => exact absurd rfl h
  | cons d l ih =>
      cases l with
      | nil => exact ⟨d, rfl⟩
      | cons d' l' => exact ih (some (dchar d)) (by simp)

theorem mres_sep_group {psep : Char → Bool} {f : Nat} {cont : Re}
    (hsd : ∀ d : Fin 10, psep (dchar d) = false)
    (hsepnd : ∀ c, psep c = true → Char.isDigit c = false)
    {n : Nat} {sp : List Char} {g : List (Fin 10)} {prev : Option Char}
    {rest : List Char} (hsp : SepOpt psep sp) (hlen : g.length = n) (hg : g ≠ []) :
      mres f (.seq (.opt (.cls psep)) (.seq (reN n dig) cont)) prev
          (sp ++ (g.map dchar ++ rest)) =
        mres f cont (olastD (olastD prev sp) (g.map dchar)) rest := by
  have hallg : ∀ c ∈ g.map dchar, Char.isDigit c = true := by
    intro c hc
    simp at hc
    obtain ⟨d, _, rfl⟩ := hc
    exact dchar_isDigit d
  have hrunlen : (g.map dchar).length = n := by simp [hlen]
  have hrun : ∀ pv, mres f (reN n dig) pv (g.map dchar ++ rest) =
      [(olastD pv (g.map dchar), rest)] := by
    intro pv
    rw [← hrunlen]
    exact mres_reN_run_eq (g.map dchar) f pv rest hallg
  rcases hsp with rfl | ⟨c, hc, rfl⟩
  · simp only [List.nil_append]
    have hopt : mres f (.opt (.cls psep)) prev (g.map dchar ++ rest) =
        [(prev, g.map dchar ++ rest)] := by
      rw [mres_opt]
      have hcl : mres f (.cls psep) prev (g.map dchar ++ rest) = [] := by
        cases g with
        | nil => exact absurd rfl hg
        | cons d g' =>
            simp only [List.map_cons, List.cons_append]
            rw [mres_cls_cons, if_neg (by simp [hsd d])]
      rw [hcl]
      rfl
    rw [mres_seq_single hopt, mres_seq_single (hrun prev)]
    rfl
  · obtain ⟨m, hm⟩ : ∃ m, n = m + 1 := by
      cases g with
      | nil => exact absurd rfl hg
      | cons d g' => exact ⟨g'.length, by simp [← hlen]⟩
    simp only [List.cons_append, List.nil_append]
    rw [mres_seq, mres_opt, mres_cls_cons, if_pos hc]
    simp only [List.singleton_append, List.flatMap_cons, List.flatMap_nil]
    have hfail : mres f (.seq (reN n dig) cont) prev
        (c :: (g.map dchar ++ rest)) = [] := by
      rw [mres_seq]
      have h0 : mres f (reN n dig) prev (c :: (g.map dchar ++ rest)) = [] := by
        rw [hm]
        exact mres_reN_fail m f prev _
          (by intro x hx; simp [headO] at hx; rw [← hx]; exact hsepnd c hc)
      rw [h0]
      rfl
    rw [hfail, mres_seq_single (hrun (some c))]
    simp [olastD]

theorem mres_seq_one {f : Nat} {a b : Re} {prev : Option Char} {s : List Char}
    {p2 : Option Char} {s2 : List Char} (h : mres f a prev s = [(p2, s2)]) :
    mres f (.seq a b) prev s = mres f b p2 s2 := by
  rw [mres_seq, h]
  simp

/-! ## The scrubber consumes each shaped token whole -/

theorem iban1_first (tok : List Char) (h : IbanTok tok) :
    ∃ dl : Fin 10, firstMatch iban1Re none tok = some (some (dchar dl), []) := by
  obtain ⟨g0, g1, g2, g3, g4, g5, s1, s2, s3, s4, s5, htok, h0, h1, h2, h3, h4, h5,
    hs1, hs2, hs3, hs4, hs5⟩ := h
  rw [show g5.map dchar = g5.map dchar ++ [] from (List.append_nil _).symm] at htok
  subst htok
  have hne5 : g5 ≠ [] := by intro hg; rw [hg] at h5; simp at h5
  obtain ⟨dl, hdl⟩ := olastD_map_dchar
    (olastD (olastD (olastD (olastD (olastD (olastD (olastD (olastD (olastD
      (olastD (some 'E') (g0.map dchar)) s1) (g1.map dchar)) s2) (g2.map dchar)) s3)
      (g3.map dchar)) s4) (g4.map dchar)) s5) g5 hne5
  refine ⟨dl, ?_⟩
  unfold firstMatch
  simp only [iban1Re, seqList, wsp, litCI]
  rw [mres_seq_one (by rw [mres_wb]; rfl)]
  rw [mres_seq_one (by rw [mres_cls_cons]; rfl)]
  rw [mres_seq_one (by rw [mres_cls_cons]; rfl)]
  have hG0 : ∀ (f : Nat) (rest : List Char),
      mres f (reN 2 dig) (some 'E') (g0.map dchar ++ rest) =
      [(olastD (some 'E') (g0.map dchar), rest)] := by
    intro f rest
    have := mres_reN_run_eq (g0.map dchar) f (some 'E') rest
      (by intro c hc; simp at hc; obtain ⟨d, _, rfl⟩ := hc; exact dchar_isDigit d)
    rw [List.length_map, h0] at this
    exact this
  rw [mres_seq_one (hG0 _ _)]
  rw [mres_sep_group dchar_not_space spaceJS_not_digit hs1 h1
    (by intro hg; rw [hg] at h1; simp at h1)]
  rw [mres_sep_group dchar_not_space spaceJS_not_digit hs2 h2
    (by intro hg; rw [hg] at h2; simp at h2)]
  rw [mres_sep_group dchar_not_space spaceJS_not_digit hs3 h3
    (by intro hg; rw [hg] at h3; simp at h3)]
  rw [mres_sep_group dchar_not_space spaceJS_not_digit hs4 h4
    (by intro hg; rw [hg] at h4; simp at h4)]
  rw [mres_sep_group dchar_not_space spaceJS_not_digit hs5 h5 hne5]
  rw [hdl, mres_wb]
  have hb : atBoundary (some (dchar dl)) [] = true := by
    simp [atBoundary, wordO, headO, dchar_word dl]
  rw [if_pos hb]
  rfl
theorem flatMap_starSplits_wb (f : Nat) :
    ∀ (u : List Char) (prev : Option Char), (∀ c ∈ u, isWordChar c = true) →
      wordO prev = true →
      (starSplits prev u []).flatMap (fun pr => mres f .wb pr.1 pr.2) =
        [(olastD prev u, [])] := by
  intro u
  induction u with
  | nil =>
      intro prev _ hprev
      simp only [starSplits, List.flatMap_cons, List.flatMap_nil, List.append_nil,
        olastD]
      rw [mres_wb, if_pos (by simp only [atBoundary, headO]; rw [hprev]; rfl)]
  | cons c u ih =>
      intro prev hall hprev
      simp only [starSplits]
      rw [List.flatMap_append]
      have hcond : atBoundary prev (c :: u) = false := by
        simp only [atBoundary, headO]
        rw [hprev, show wordO (some c) = isWordChar c from rfl, hall c (by simp)]
        rfl
      have h2 : mres f .wb prev (c :: u) = [] := by
        rw [mres_wb, if_neg (by simp [hcond])]
      simp only [List.flatMap_cons, List.flatMap_nil, h2, List.append_nil]
      rw [ih (some c) (fun x hx => hall x (by simp [hx]))
        (by simp [wordO, hall c (by simp)])]
      rfl

theorem olastD_dchar_pv (d : Fin 10) (l : List (Fin 10)) :
    ∃ dl : Fin 10, olastD (some (dchar d)) (l.map dchar) = some (dchar dl) := by
  cases l with
  | nil => exact ⟨d, rfl⟩
  | cons a l => exact olastD_map_dchar (some (dchar d)) (a :: l) (by simp)

theorem replaceAll_skip1_full (re : Re) (rep : List Char) (c : Char)
    (rest : List Char) (last : Option Char)
    (h0 : firstMatch re none (c :: rest) = none)
    (h1 : firstMatch re (some c) rest = some (last, []))
    (hne : rest ≠ []) :
    replaceAll re rep (c :: rest) = c :: rep := by
  cases rest with
  | nil => exact absurd rfl hne
  | cons d r =>
      show replAux re rep (r.length + 1 + 1 + 1) none (c :: d :: r) = c :: rep
      unfold replAux
      rw [h0]
      show c :: replAux re rep (r.length + 1 + 1) (some c) (d :: r) = c :: rep
      unfold replAux
      rw [h1]
      simp [replAux_nil]

theorem eid_first (tok : List Char) (h : EidTok tok) :
    ∃ dl : Fin 10, firstMatch eidRe none tok = some (some (dchar dl), []) := by
  obtain ⟨s1, s2, s3, a, b, c, htok, hs1, ha, hs2, hb, hs3⟩ := h
  subst htok
  refine ⟨c, ?_⟩
  have hdig : ∀ (f : Nat) (pv : Option Char),
      mres f (.seq dig .wb) pv [dchar c] = [(some (dchar c), [])] := by
    intro f pv
    have h1 : mres f dig pv [dchar c] = [(some (dchar c), [])] := by
      show mres f (.cls Char.isDigit) pv [dchar c] = _
      rw [mres_cls_cons, if_pos (dchar_isDigit c)]
    rw [mres_seq_one h1, mres_wb,
      if_pos (by simp [atBoundary, wordO, headO, dchar_word c])]
  unfold firstMatch
  simp only [eidRe, seqList, lit, show sepCls = Re.cls isEidSep from rfl]
  rw [mres_seq_one (by rw [mres_wb]; rfl)]
  rw [mres_seq_one (by rw [mres_cls_cons]; rfl)]
  rw [mres_seq_one (by rw [mres_cls_cons]; rfl)]
  rw [mres_seq_one (by rw [mres_cls_cons]; rfl)]
  rw [mres_sep_group dchar_not_eidsep eidSep_not_digit hs1 ha
    (by intro hg; rw [hg] at ha; simp at ha)]
  rw [mres_sep_group dchar_not_eidsep eidSep_not_digit hs2 hb
    (by intro hg; rw [hg] at hb; simp at hb)]
  rcases hs3 with rfl | ⟨e, he, rfl⟩
  · rw [List.nil_append]
    have hopt : ∀ (f : Nat) (pv : Option Char),
        mres f (.opt (.cls isEidSep)) pv [dchar c] = [(pv, [dchar c])] := by
      intro f pv
      rw [mres_opt, mres_cls_cons, if_neg (by simp [dchar_not_eidsep c])]
      rfl
    rw [mres_seq_one (hopt _ _), hdig _ _]
    rfl
  · have hfail : ∀ (f : Nat) (pv : Option Char),
        mres f (.seq dig .wb) pv (e :: [dchar c]) = [] := by
      intro f pv
      rw [mres_seq]
      have hd : mres f dig pv (e :: [dchar c]) = [] := by
        show mres f (.cls Char.isDigit) pv (e :: [dchar c]) = []
        rw [mres_cls_cons, if_neg (by simp [eidSep_not_digit e he])]
      rw [hd]
      rfl
    rw [show [e] ++ [dchar c] = e :: [dchar c] from rfl]
    rw [mres_seq, mres_opt, mres_cls_cons, if_pos he]
    simp only [List.singleton_append, List.flatMap_cons, List.flatMap_nil,
      List.append_nil]
    rw [hdig _ _, hfail _ _]
    rfl

theorem passport_first (tok : List Char) (h : PassportTok tok) :
    ∃ dl : Fin 10, firstMatch passportRe none tok = some (some (dchar dl), []) := by
  obtain ⟨us, ds, htok, hus1, hus2, hds1, hds2⟩ := h
  obtain ⟨d1, e, x, hds, he5, hx3⟩ :
      ∃ (d1 : Fin 10) (e x : List (Fin 10)),
        ds = d1 :: (e ++ x) ∧ e.length = 5 ∧ x.length ≤ 3 := by
    cases ds with
    | nil => simp at hds1
    | cons d1 ds' =>
        refine ⟨d1, ds'.take 5, ds'.drop 5, by rw [List.take_append_drop], ?_, ?_⟩
        · rw [List.length_take]
          simp only [List.length_cons] at hds1
          omega
        · rw [List.length_drop]
          simp only [List.length_cons] at hds2
          omega
  subst hds
  simp only [List.map_cons, List.map_append] at htok
  rw [show x.map dchar = x.map dchar ++ [] from (List.append_nil _).symm] at htok
  obtain ⟨dm, hdm⟩ := olastD_dchar_pv d1 e
  obtain ⟨dl, hdl⟩ := olastD_dchar_pv dm x
  have hxw : ∀ ch ∈ x.map dchar, isWordChar ch = true := by
    intro ch hch
    simp at hch
    obtain ⟨d, _, rfl⟩ := hch
    exact dchar_word d
  have hrun : ∀ (f : Nat) (pv : Option Char),
      mres f (reN 6 (.cls Char.isDigit)) pv
        (dchar d1 :: (e.map dchar ++ (x.map dchar ++ []))) =
      [(some (dchar dm), x.map dchar ++ [])] := by
    intro f pv
    have h := mres_reN_run_eq (dchar d1 :: e.map dchar) f pv (x.map dchar ++ [])
      (by intro ch hch
          simp at hch
          rcases hch with rfl | ⟨d, _, rfl⟩
          · exact dchar_isDigit d1
          · exact dchar_isDigit d)
    rw [show (dchar d1 :: e.map dchar).length = 6 by simp [he5]] at h
    rw [List.cons_append] at h
    rw [show olastD pv (dchar d1 :: e.map dchar) = some (dchar dm) from hdm] at h
    exact h
  have hup3 : ∀ f : Nat, mres f (upTo 3 (.cls Char.isDigit)) (some (dchar dm))
      (x.map dchar ++ []) = starSplits (some (dchar dm)) (x.map dchar) [] := by
    intro f
    exact mres_upTo_eq (x.map dchar) 3 f (some (dchar dm)) []
      (by simpa using hx3)
      (by intro ch hch; simp at hch; obtain ⟨d, _, rfl⟩ := hch; exact dchar_isDigit d)
      (by intro ch hch; simp [headO] at hch)
  cases us with
  | nil => simp at hus1
  | cons u1 us' =>
    cases us' with
    | nil =>
        simp only [List.map_cons, List.map_nil, List.cons_append,
          List.nil_append] at htok
        subst htok
        refine ⟨dl, ?_⟩
        have hboundary : atBoundary none
            (uchar u1 :: dchar d1 :: (e.map dchar ++ (x.map dchar ++ []))) = true := by
          simp [atBoundary, wordO, headO, uchar_word u1]
        have hup1 : ∀ f : Nat, mres f (upTo 1 (.cls isUpperAZ)) (some (uchar u1))
            (dchar d1 :: (e.map dchar ++ (x.map dchar ++ []))) =
            [(some (uchar u1), dchar d1 :: (e.map dchar ++ (x.map dchar ++ [])))] := by
          intro f
          have h := mres_upTo_eq [] 1 f (some (uchar u1))
            (dchar d1 :: (e.map dchar ++ (x.map dchar ++ [])))
            (by simp) (by simp)
            (by intro ch hch
                simp only [headO] at hch
                injection hch with h2
                rw [← h2]
                exact dchar_not_upper d1)
          simpa [starSplits] using h
        unfold firstMatch
        simp only [passportRe, seqList, upperAZ, dig]
        rw [mres_seq_one (by rw [mres_wb, if_pos hboundary])]
        rw [mres_seq_one (by rw [mres_cls_cons, if_pos (uchar_upper u1)])]
        rw [mres_seq_one (hup1 _)]
        rw [mres_seq_one (hrun _ _)]
        rw [mres_seq, hup3 _]
        rw [flatMap_starSplits_wb _ (x.map dchar) (some (dchar dm)) hxw
          (by simp [wordO, dchar_word dm])]
        rw [hdl]
        rfl
    | cons u2 us'' =>
        cases us'' with
        | cons u3 t =>
            simp only [List.length_cons] at hus2
            omega
        | nil =>
            simp only [List.map_cons, List.map_nil, List.cons_append,
              List.nil_append] at htok
            subst htok
            refine ⟨dl, ?_⟩
            have hboundary : atBoundary none (uchar u1 :: uchar u2 ::
                dchar d1 :: (e.map dchar ++ (x.map dchar ++ []))) = true := by
              simp [atBoundary, wordO, headO, uchar_word u1]
            have hup1 : ∀ f : Nat, mres f (upTo 1 (.cls isUpperAZ)) (some (uchar u1))
                (uchar u2 :: dchar d1 :: (e.map dchar ++ (x.map dchar ++ []))) =
                [(some (uchar u2), dchar d1 :: (e.map dchar ++ (x.map dchar ++ []))),
                  (some (uchar u1),
                    uchar u2 :: dchar d1 :: (e.map dchar ++ (x.map dchar ++ [])))] := by
              intro f
              have h : mres f (upTo 1 (.cls isUpperAZ)) (some (uchar u1))
                  ([uchar u2] ++ (dchar d1 :: (e.map dchar ++ (x.map dchar ++ [])))) =
                  starSplits (some (uchar u1)) [uchar u2]
                    (dchar d1 :: (e.map dchar ++ (x.map dchar ++ []))) :=
                mres_upTo_eq [uchar u2] 1 f (some (uchar u1))
                  (dchar d1 :: (e.map dchar ++ (x.map dchar ++ [])))
                  (by simp)
                  (by intro ch hch
                      simp at hch
                      rw [hch]
                      exact uchar_upper u2)
                  (by intro ch hch
                      simp only [headO] at hch
                      injection hch with h2
                      rw [← h2]
                      exact dchar_not_upper d1)
              simpa [starSplits] using h
            have hA : ∀ f : Nat, mres f (.seq (reN 6 (.cls Char.isDigit))
                (.seq (upTo 3 (.cls Char.isDigit)) .wb)) (some (uchar u2))
                (dchar d1 :: (e.map dchar ++ (x.map dchar ++ []))) =
                [(some (dchar dl), [])] := by
              intro f
              rw [mres_seq_one (hrun f _), mres_seq, hup3 f]
              rw [flatMap_starSplits_wb f (x.map dchar) (some (dchar dm)) hxw
                (by simp [wordO, dchar_word dm])]
              rw [hdl]
            have hB : ∀ f : Nat, mres f (.seq (reN 6 (.cls Char.isDigit))
                (.seq (upTo 3 (.cls Char.isDigit)) .wb)) (some (uchar u1))
                (uchar u2 :: dchar d1 :: (e.map dchar ++ (x.map dchar ++ []))) = [] := by
              intro f
              have h0 : mres f (reN 6 (.cls Char.isDigit)) (some (uchar u1))
                  (uchar u2 :: dchar d1 :: (e.map dchar ++ (x.map dchar ++ []))) = [] :=
                mres_reN_fail 5 f (some (uchar u1)) _ (by
                  intro ch hch
                  simp only [headO] at hch
                  injection hch with h2
                  rw [← h2]
                  exact uchar_not_digit u2)
              rw [mres_seq, h0]
              rfl
            unfold firstMatch
            simp only [passportRe, seqList, upperAZ, dig]
            rw [mres_seq_one (by rw [mres_wb, if_pos hboundary])]
            rw [mres_seq_one (by rw [mres_cls_cons, if_pos (uchar_upper u1)])]
            rw [mres_seq, hup1 _]
            simp only [List.flatMap_cons, List.flatMap_nil]
            rw [hA _, hB _]
            rfl


theorem mres_litcls_ok (f : Nat) (pv : Option Char) (a : Char) (r : List Char) :
    mres f (.cls (fun x => x = a)) pv (a :: r) = [(some a, r)] := by
  rw [mres_cls_cons, if_pos (by simp)]

theorem mres_litcls_fail (f : Nat) (pv : Option Char) (a c0 : Char) (r : List Char)
    (h : c0 ≠ a) : mres f (.cls (fun x => x = a)) pv (c0 :: r) = [] := by
  rw [mres_cls_cons, if_neg (by simp [h])]

theorem mres_litseq_fail (f : Nat) (pv : Option Char) (a c0 : Char) (b : Re)
    (r : List Char) (h : c0 ≠ a) :
    mres f (.seq (.cls (fun x => x = a)) b) pv (c0 :: r) = [] := by
  rw [mres_seq, mres_litcls_fail f pv a c0 r h]
  rfl

theorem mres_str971 (f : Nat) (pv : Option Char) (rest : List Char) :
    mres f (.seq (.cls (fun x => x = '9')) (.seq (.cls (fun x => x = '7'))
      (.cls (fun x => x = '1')))) pv ('9' :: '7' :: '1' :: rest) =
      [(some '1', rest)] := by
  rw [mres_seq_one (mres_litcls_ok f pv '9' _)]
  rw [mres_seq_one (mres_litcls_ok f (some '9') '7' _)]
  rw [mres_litcls_ok f (some '7') '1' _]

theorem mres_str00971 (f : Nat) (pv : Option Char) (rest : List Char) :
    mres f (.seq (.cls (fun x => x = '0')) (.seq (.cls (fun x => x = '0'))
      (.seq (.cls (fun x => x = '9')) (.seq (.cls (fun x => x = '7'))
        (.cls (fun x => x = '1')))))) pv ('0' :: '0' :: '9' :: '7' :: '1' :: rest) =
      [(some '1', rest)] := by
  rw [mres_seq_one (mres_litcls_ok f pv '0' _)]
  rw [mres_seq_one (mres_litcls_ok f (some '0') '0' _)]
  exact mres_str971 f (some '0') rest

theorem mres_tail58 (ds : List (Fin 10)) (hds : ds.length = 8) (dl : Fin 10)
    (hdl : olastD (some '5') (ds.map dchar) = some (dchar dl)) (f : Nat)
    (pv : Option Char) :
    mres f (.seq (.cls (fun x => x = '5')) (.seq (reN 8 (.cls Char.isDigit)) .wb)) pv
      ('5' :: (ds.map dchar ++ [])) = [(some (dchar dl), [])] := by
  rw [mres_seq_one (mres_litcls_ok f pv '5' _)]
  have hrun : mres f (reN 8 (.cls Char.isDigit)) (some '5') (ds.map dchar ++ []) =
      [(olastD (some '5') (ds.map dchar), [])] := by
    have h2 := mres_reN_run_eq (ds.map dchar) f (some '5') []
      (by intro ch hch; simp at hch; obtain ⟨d, _, rfl⟩ := hch; exact dchar_isDigit d)
    rw [show (ds.map dchar).length = 8 by simp [hds]] at h2
    exact h2
  rw [mres_seq_one hrun, hdl, mres_wb,
    if_pos (by simp [atBoundary, wordO, headO, dchar_word dl])]

theorem mres_tail_skip (f : Nat) (pv : Option Char) (c0 : Char) (r : List Char)
    (h : c0 ≠ '5') :
    mres f (.seq (.cls (fun x => x = '5')) (.seq (reN 8 (.cls Char.isDigit)) .wb)) pv
      (c0 :: r) = [] :=
  mres_litseq_fail f pv '5' c0 _ r h

theorem phone1_first (tok : List Char) (h : MobileTok tok)
    (hnp : tok.head? ≠ some '+') :
    ∃ dl : Fin 10, firstMatch phone1Re none tok = some (some (dchar dl), []) := by
  obtain ⟨pfx, ds, hpfx, htok, hds⟩ := h
  have hdsne : ds ≠ [] := by intro hg; rw [hg] at hds; simp at hds
  obtain ⟨dl, hdl⟩ := olastD_map_dchar (some '5') ds hdsne
  refine ⟨dl, ?_⟩
  rw [show ds.map dchar = ds.map dchar ++ [] from (List.append_nil _).symm] at htok
  rcases hpfx with rfl | rfl | rfl | rfl | rfl
  · simp only [List.nil_append] at htok
    subst htok
    unfold firstMatch
    simp only [phone1Re, seqList, altList, strRe, List.map_cons, List.map_nil, lit, dig]
    rw [mres_seq_one (by rw [mres_wb]; rfl)]
    rw [mres_seq, mres_opt, mres_alt, mres_alt, mres_alt]
    rw [mres_litseq_fail _ _ '+' '5' _ _ (by decide)]
    rw [mres_litseq_fail _ _ '0' '5' _ _ (by decide)]
    rw [mres_litseq_fail _ _ '9' '5' _ _ (by decide)]
    rw [mres_litcls_fail _ _ '0' '5' _ (by decide)]
    simp only [List.nil_append, List.flatMap_cons, List.flatMap_nil]
    rw [mres_tail58 ds hds dl hdl _ _]
    rfl
  · simp only [List.cons_append, List.nil_append] at htok
    subst htok
    unfold firstMatch
    simp only [phone1Re, seqList, altList, strRe, List.map_cons, List.map_nil, lit, dig]
    rw [mres_seq_one (by rw [mres_wb]; rfl)]
    rw [mres_seq, mres_opt, mres_alt, mres_alt, mres_alt]
    rw [mres_litseq_fail _ _ '+' '0' _ _ (by decide)]
    have hBfail : ∀ f : Nat, mres f (.seq (.cls (fun x => x = '0'))
        (.seq (.cls (fun x => x = '0')) (.seq (.cls (fun x => x = '9'))
          (.seq (.cls (fun x => x = '7')) (.cls (fun x => x = '1')))))) none
        ('0' :: '5' :: (ds.map dchar ++ [])) = [] := by
      intro f
      rw [mres_seq_one (mres_litcls_ok f none '0' _)]
      rw [mres_litseq_fail _ _ '0' '5' _ _ (by decide)]
    rw [hBfail _]
    rw [mres_litseq_fail _ _ '9' '0' _ _ (by decide)]
    rw [mres_litcls_ok _ _ '0' _]
    simp only [List.nil_append, List.singleton_append, List.cons_append,
      List.flatMap_cons, List.flatMap_nil]
    rw [mres_tail58 ds hds dl hdl _ _, mres_tail_skip _ _ '0' _ (by decide)]
    rfl
  · simp only [List.cons_append, List.nil_append] at htok
    subst htok
    unfold firstMatch
    simp only [phone1Re, seqList, altList, strRe, List.map_cons, List.map_nil, lit, dig]
    rw [mres_seq_one (by rw [mres_wb]; rfl)]
    rw [mres_seq, mres_opt, mres_alt, mres_alt, mres_alt]
    rw [mres_litseq_fail _ _ '+' '9' _ _ (by decide)]
    rw [mres_litseq_fail _ _ '0' '9' _ _ (by decide)]
    rw [mres_str971 _ _ _]
    rw [mres_litcls_fail _ _ '0' '9' _ (by decide)]
    simp only [List.nil_append, List.singleton_append, List.cons_append,
      List.flatMap_cons, List.flatMap_nil]
    rw [mres_tail58 ds hds dl hdl _ _, mres_tail_skip _ _ '9' _ (by decide)]
    rfl
  · simp only [List.cons_append, List.nil_append] at htok
    subst htok
    unfold firstMatch
    simp only [phone1Re, seqList, altList, strRe, List.map_cons, List.map_nil, lit, dig]
    rw [mres_seq_one (by rw [mres_wb]; rfl)]
    rw [mres_seq, mres_opt, mres_alt, mres_alt, mres_alt]
    rw [mres_litseq_fail _ _ '+' '0' _ _ (by decide)]
    rw [mres_str00971 _ _ _]
    rw [mres_litseq_fail _ _ '9' '0' _ _ (by decide)]
    rw [mres_litcls_ok _ _ '0' _]
    simp only [List.nil_append, List.singleton_append, List.cons_append,
      List.flatMap_cons, List.flatMap_nil]
    rw [mres_tail58 ds hds dl hdl _ _, mres_tail_skip _ _ '0' _ (by decide),
      mres_tail_skip _ _ '0' _ (by decide)]
    rfl
  · simp only [List.cons_append, List.nil_append] at htok
    subst htok
    exact absurd rfl hnp

theorem phone1_plus (ds : List (Fin 10)) (hds : ds.length = 8) :
    firstMatch phone1Re none ('+' :: '9' :: '7' :: '1' :: '5' :: ds.map dchar) = none ∧
    ∃ dl : Fin 10, firstMatch phone1Re (some '+')
      ('9' :: '7' :: '1' :: '5' :: ds.map dchar) = some (some (dchar dl), []) := by
  have hdsne : ds ≠ [] := by intro hg; rw [hg] at hds; simp at hds
  obtain ⟨dl, hdl⟩ := olastD_map_dchar (some '5') ds hdsne
  constructor
  · unfold firstMatch
    simp only [phone1Re, seqList]
    rw [mres_seq]
    have hbf : atBoundary none ('+' :: '9' :: '7' :: '1' :: '5' :: ds.map dchar) =
        false := rfl
    rw [mres_wb, if_neg (by simp [hbf])]
    rfl
  · refine ⟨dl, ?_⟩
    rw [show ds.map dchar = ds.map dchar ++ [] from (List.append_nil _).symm]
    unfold firstMatch
    simp only [phone1Re, seqList, altList, strRe, List.map_cons, List.map_nil, lit, dig]
    rw [mres_seq_one (by rw [mres_wb]; rfl)]
    rw [mres_seq, mres_opt, mres_alt, mres_alt, mres_alt]
    rw [mres_litseq_fail _ _ '+' '9' _ _ (by decide)]
    rw [mres_litseq_fail _ _ '0' '9' _ _ (by decide)]
    rw [mres_str971 _ _ _]
    rw [mres_litcls_fail _ _ '0' '9' _ (by decide)]
    simp only [List.nil_append, List.singleton_append, List.cons_append,
      List.flatMap_cons, List.flatMap_nil]
    rw [mres_tail58 ds hds dl hdl _ _, mres_tail_skip _ _ '9' _ (by decide)]
    rfl


theorem flatMap_starSplits_at {p : Char → Bool} {b : Re} (f : Nat) :
    ∀ (u : List Char) (prev : Option Char) (rest : List Char),
      (∀ c ∈ u, p c = false) →
      (starSplits prev u rest).flatMap
          (fun pr => mres f (.seq (.cls p) b) pr.1 pr.2) =
        mres f (.seq (.cls p) b) (olastD prev u) rest := by
  intro u
  induction u with
  | nil => intro prev rest _; simp [starSplits, olastD]
  | cons c u ih =>
      intro prev rest hu
      simp only [starSplits]
      rw [List.flatMap_append]
      rw [ih (some c) rest (fun x hx => hu x (by simp [hx]))]
      have h2 : mres f (.seq (.cls p) b) prev ((c :: u) ++ rest) = [] := by
        simp only [List.cons_append]
        rw [mres_seq, mres_cls_cons, if_neg (by simp [hu c (by simp)])]
        rfl
      simp only [List.flatMap_cons, List.flatMap_nil, h2, List.append_nil]
      rfl

theorem flatMap_starSplits_sep {p : Char → Bool} {b : Re} (f : Nat)
    (u v : List Char) (c0 : Char) (prev : Option Char)
    (hu : ∀ c ∈ u, p c = false) (hv : ∀ c ∈ v, p c = false) (hc0 : p c0 = true) :
    (starSplits prev (u ++ c0 :: v) []).flatMap
        (fun pr => mres f (.seq (.cls p) b) pr.1 pr.2) =
      mres f b (some c0) (v ++ []) := by
  rw [starSplits_append u prev (c0 :: v) []]
  rw [List.flatMap_append]
  have htail : ((starSplits prev u ((c0 :: v) ++ [])).tail).flatMap
      (fun pr => mres f (.seq (.cls p) b) pr.1 pr.2) = [] := by
    apply flatMap_nil_of_all
    intro pr hpr
    obtain ⟨c, u₁, u₂, hu2, rfl⟩ := starSplits_tail_mem _ _ _ _ hpr
    have hcu : c ∈ u := by rw [hu2]; simp
    simp only [List.cons_append]
    rw [mres_seq, mres_cls_cons, if_neg (by simp [hu c hcu])]
    rfl
  rw [htail, List.append_nil]
  rw [show starSplits (olastD prev u) (c0 :: v) [] =
    starSplits (some c0) v [] ++ [(olastD prev u, (c0 :: v) ++ [])] from rfl]
  rw [List.flatMap_append]
  have hfails : (starSplits (some c0) v []).flatMap
      (fun pr => mres f (.seq (.cls p) b) pr.1 pr.2) = [] := by
    apply flatMap_nil_of_all
    intro pr hpr
    obtain ⟨u₁, u₂, hu2, rfl⟩ := starSplits_mem_char _ _ _ _ hpr
    cases u₂ with
    | nil =>
        simp only [List.nil_append]
        rw [mres_seq, mres_cls_nil]
        rfl
    | cons c u₂' =>
        have hcv : c ∈ v := by rw [hu2]; simp
        simp only [List.cons_append]
        rw [mres_seq, mres_cls_cons, if_neg (by simp [hv c hcv])]
        rfl
  rw [hfails, List.nil_append]
  simp only [List.flatMap_cons, List.flatMap_nil, List.cons_append, List.append_nil]
  rw [mres_seq, mres_cls_cons, if_pos hc0]
  simp

theorem olastD_map_lchar (prev : Option Char) (l : List (Fin 26)) (h : l ≠ []) :
    ∃ d : Fin 26, olastD prev (l.map lchar) = some (lchar d) := by
  induction l generalizing prev with
  | nil => exact absurd rfl h
  | cons d l ih =>
      cases l with
      | nil => exact ⟨d, rfl⟩
      | cons d' l' => exact ih (some (lchar d)) (by simp)

theorem olastD_lchar_pv (a : Fin 26) (l : List (Fin 26)) :
    ∃ ll : Fin 26, olastD (some (lchar a)) (l.map lchar) = some (lchar ll) := by
  cases l with
  | nil => exact ⟨a, rfl⟩
  | cons b l => exact olastD_map_lchar (some (lchar a)) (b :: l) (by simp)

theorem email_first_gen (q : Char → Bool) (hq : ∀ l : Fin 26, q (lchar l) = true)
    (tok : List Char) (h : EmailTok tok) :
    ∃ ll : Fin 26, firstMatch (seqList [.wb, rplus (.cls isLocalChar), lit '@',
      rplus (.cls isDomChar), lit '.', reN 2 (.cls q), .star (.cls q), .wb])
      none tok = some (some (lchar ll), []) := by
  obtain ⟨lo, dm, tl, htok, hlo, hdm, htl⟩ := h
  obtain ⟨l0, lo', rfl⟩ : ∃ a r, lo = a :: r := by
    cases lo with
    | nil => exact absurd rfl hlo
    | cons a r => exact ⟨a, r, rfl⟩
  obtain ⟨m0, dm', rfl⟩ : ∃ a r, dm = a :: r := by
    cases dm with
    | nil => exact absurd rfl hdm
    | cons a r => exact ⟨a, r, rfl⟩
  obtain ⟨t1, t2, tr, rfl⟩ : ∃ a b r, tl = a :: b :: r := by
    cases tl with
    | nil => simp at htl
    | cons a tl' =>
        cases tl' with
        | nil => simp at htl
        | cons b r => exact ⟨a, b, r, rfl⟩
  simp only [List.map_cons, List.cons_append] at htok
  subst htok
  obtain ⟨ll, hll⟩ := olastD_lchar_pv t2 tr
  refine ⟨ll, ?_⟩
  have hlocq : ∀ c ∈ lo'.map lchar, (decide (c = '@')) = false := by
    intro c hc
    simp at hc
    obtain ⟨i, _, rfl⟩ := hc
    exact lchar_ne_at i
  have hdmq : ∀ c ∈ dm'.map lchar, (decide (c = '.')) = false := by
    intro c hc
    simp at hc
    obtain ⟨i, _, rfl⟩ := hc
    exact lchar_ne_dot i
  have htlq : ∀ c ∈ lchar t1 :: lchar t2 :: tr.map lchar,
      (decide (c = '.')) = false := by
    intro c hc
    simp at hc
    rcases hc with rfl | rfl | ⟨i, _, rfl⟩
    · exact lchar_ne_dot t1
    · exact lchar_ne_dot t2
    · exact lchar_ne_dot i
  have hboundary : atBoundary none (lchar l0 :: (lo'.map lchar ++ ('@' :: lchar m0 ::
      (dm'.map lchar ++ ('.' :: lchar t1 :: lchar t2 :: tr.map lchar))))) = true := by
    simp [atBoundary, wordO, headO, lchar_word l0]
  have hloc : ∀ f : Nat, (lo'.map lchar).length < f →
      mres f (.seq (.cls isLocalChar) (.star (.cls isLocalChar))) none
        (lchar l0 :: (lo'.map lchar ++ ('@' :: lchar m0 ::
          (dm'.map lchar ++ ('.' :: lchar t1 :: lchar t2 :: tr.map lchar))))) =
      starSplits (some (lchar l0)) (lo'.map lchar)
        ('@' :: lchar m0 ::
          (dm'.map lchar ++ ('.' :: lchar t1 :: lchar t2 :: tr.map lchar))) := by
    intro f hf
    rw [mres_seq_one (by rw [mres_cls_cons, if_pos (lchar_isLocal l0)])]
    exact mres_star_cls_eq (lo'.map lchar) f (some (lchar l0)) _ hf
      (by intro ch hch; simp at hch; obtain ⟨i, _, rfl⟩ := hch; exact lchar_isLocal i)
      (by intro ch hch
          simp only [headO] at hch
          injection hch with h2
          rw [← h2]
          decide)
  have hdom : ∀ f : Nat,
      (dm'.map lchar ++ ('.' :: lchar t1 :: lchar t2 :: tr.map lchar)).length < f →
      mres f (.seq (.cls isDomChar) (.star (.cls isDomChar))) (some '@')
        (lchar m0 :: (dm'.map lchar ++ ('.' :: lchar t1 :: lchar t2 :: tr.map lchar))) =
      starSplits (some (lchar m0))
        (dm'.map lchar ++ ('.' :: lchar t1 :: lchar t2 :: tr.map lchar)) [] := by
    intro f hf
    rw [mres_seq_one (by rw [mres_cls_cons, if_pos (lchar_isDom m0)])]
    have h2 : mres f (.star (.cls isDomChar)) (some (lchar m0))
        ((dm'.map lchar ++ ('.' :: lchar t1 :: lchar t2 :: tr.map lchar)) ++ []) =
        starSplits (some (lchar m0))
          (dm'.map lchar ++ ('.' :: lchar t1 :: lchar t2 :: tr.map lchar)) [] :=
      mres_star_cls_eq
        (dm'.map lchar ++ ('.' :: lchar t1 :: lchar t2 :: tr.map lchar)) f
        (some (lchar m0)) [] hf
        (by intro ch hch
            rw [List.mem_append] at hch
            rcases hch with hch | hch
            · simp at hch
              obtain ⟨i, _, rfl⟩ := hch
              exact lchar_isDom i
            · simp at hch
              rcases hch with rfl | rfl | rfl | ⟨i, _, rfl⟩
              · decide
              · exact lchar_isDom t1
              · exact lchar_isDom t2
              · exact lchar_isDom i)
        (by intro ch hch; simp [headO] at hch)
    rw [List.append_nil] at h2
    exact h2
  have hrun2 : ∀ f : Nat, mres f (reN 2 (.cls q)) (some '.')
      (lchar t1 :: lchar t2 :: (tr.map lchar ++ [])) =
      [(some (lchar t2), tr.map lchar ++ [])] := by
    intro f
    have h2 := mres_reN_run_eq [lchar t1, lchar t2] f (some '.') (tr.map lchar ++ [])
      (by intro ch hch
          simp at hch
          rcases hch with rfl | rfl
          · exact hq t1
          · exact hq t2)
    simpa [olastD] using h2
  have hstar : ∀ f : Nat, (tr.map lchar).length < f →
      mres f (.star (.cls q)) (some (lchar t2)) (tr.map lchar ++ []) =
      starSplits (some (lchar t2)) (tr.map lchar) [] :=
    fun f hf => mres_star_cls_eq (tr.map lchar) f (some (lchar t2)) [] hf
      (by intro ch hch; simp at hch; obtain ⟨i, _, rfl⟩ := hch; exact hq i)
      (by intro ch hch; simp [headO] at hch)
  unfold firstMatch
  simp only [seqList, rplus, lit]
  set F := ((lchar l0 :: (lo'.map lchar ++ ('@' :: lchar m0 ::
    (dm'.map lchar ++ ('.' :: lchar t1 :: lchar t2 :: tr.map lchar))))).length + 1)
    with hF
  rw [mres_seq_one (by rw [mres_wb, if_pos hboundary])]
  rw [mres_seq]
  rw [hloc F (by rw [hF]
                 simp only [List.length_cons, List.length_append, List.length_map]
                 omega)]
  rw [flatMap_starSplits_at _ _ _ _ hlocq]
  rw [mres_seq_one (mres_litcls_ok _ _ '@' _)]
  rw [mres_seq]
  rw [hdom F (by rw [hF]
                 simp only [List.length_cons, List.length_append, List.length_map]
                 omega)]
  rw [flatMap_starSplits_sep _ (dm'.map lchar)
    (lchar t1 :: lchar t2 :: tr.map lchar) '.' (some (lchar m0)) hdmq htlq
    (by decide)]
  simp only [List.cons_append]
  rw [mres_seq_one (hrun2 _)]
  rw [mres_seq]
  rw [hstar F (by rw [hF]
                  simp only [List.length_cons, List.length_append, List.length_map]
                  omega)]
  rw [flatMap_starSplits_wb _ (tr.map lchar) (some (lchar t2))
    (by intro ch hch; simp at hch; obtain ⟨i, _, rfl⟩ := hch; exact lchar_word i)
    (by simp [wordO, lchar_word t2])]
  rw [hll]
  rfl


theorem email_first (tok : List Char) (h : EmailTok tok) :
    ∃ ll : Fin 26, firstMatch emailRe none tok = some (some (lchar ll), []) :=
  email_first_gen isTldChar lchar_isTld tok h

theorem email_first_gate (tok : List Char) (h : EmailTok tok) :
    ∃ ll : Fin 26, firstMatch gateEmailRe none tok = some (some (lchar ll), []) :=
  email_first_gen isAlphaAZ lchar_isAlpha tok h


/-! ## Letter-count bound for the IBAN-label pass -/

theorem ciIban_i : ∀ c : Char, (decide (c.toLower = 'I'.toLower)) = true →
    isCIiban c = true := by
  intro c hc
  unfold isCIiban
  rw [hc]
  simp

theorem ciIban_b : ∀ c : Char, (decide (c.toLower = 'B'.toLower)) = true →
    isCIiban c = true := by
  intro c hc
  unfold isCIiban
  rw [hc]
  simp

theorem ciIban_a : ∀ c : Char, (decide (c.toLower = 'A'.toLower)) = true →
    isCIiban c = true := by
  intro c hc
  unfold isCIiban
  rw [hc]
  simp

theorem ciIban_n : ∀ c : Char, (decide (c.toLower = 'N'.toLower)) = true →
    isCIiban c = true := by
  intro c hc
  unfold isCIiban
  rw [hc]
  simp

theorem ciIban_alpha : ∀ c : Char, isAlphaAZ c = true → isCIiban c = true := by
  intro c hc
  unfold isCIiban
  rw [hc]
  simp

theorem cntA_iban2 : MinCnt isCIiban iban2Re 6 := by
  exact minCnt_of_eq
    (MinCnt.seq MinCnt.wb (MinCnt.seq (MinCnt.cls ciIban_i) (MinCnt.seq
      (MinCnt.cls ciIban_b) (MinCnt.seq (MinCnt.cls ciIban_a) (MinCnt.seq
      (MinCnt.cls ciIban_n) (MinCnt.seq (MinCnt.star _) (MinCnt.seq
      (minCnt_reN ciIban_alpha 2) (MinCnt.seq (minCnt_reN_zero _ _ 2) (MinCnt.seq
      (MinCnt.seq (MinCnt.clsZero _) (MinCnt.star _)) MinCnt.wb)))))))))
    (by decide)

theorem eidSep_cases (c : Char) (h : isEidSep c = true) :
    c = '-' ∨ c = ' ' ∨ c = '\t' ∨ c = '\n' ∨ c = '\r' ∨ c = '\x0b' ∨ c = '\x0c' := by
  simp [isEidSep] at h
  rcases h with h | h
  · exact Or.inl h
  · exact Or.inr (spaceJS_cases c h)

theorem eidSep_not_ciIban (c : Char) (h : isEidSep c = true) : isCIiban c = false := by
  rcases eidSep_cases c h with rfl | rfl | rfl | rfl | rfl | rfl | rfl <;> decide

theorem eidSep_not_upper (c : Char) (h : isEidSep c = true) : isUpperAZ c = false := by
  rcases eidSep_cases c h with rfl | rfl | rfl | rfl | rfl | rfl | rfl <;> decide

/-! ## Substring counting -/

theorem subAt_pre : ∀ (pat s : List Char), subAt pat s = true → pat <+: s := by
  intro pat
  induction pat with
  | nil => intro s _; exact List.nil_prefix
  | cons c p ih =>
      intro s h
      cases s with
      | nil => simp [subAt] at h
      | cons d r =>
          simp only [subAt, Bool.and_eq_true, decide_eq_true_eq] at h
          obtain ⟨rfl, h2⟩ := h
          exact (List.cons_prefix_cons).mpr ⟨rfl, ih r h2⟩

theorem hasSub_countP (p : Char → Bool) :
    ∀ (s pat : List Char), hasSub pat s = true → pat.countP p ≤ s.countP p := by
  intro s
  induction s with
  | nil =>
      intro pat h
      cases pat with
      | nil => exact Nat.le_refl _
      | cons a q => simp [hasSub] at h
  | cons c r ih =>
      intro pat h
      simp only [hasSub, Bool.or_eq_true] at h
      rcases h with h | h
      · exact (subAt_pre pat (c :: r) h).sublist.countP_le p
      · have h1 := ih pat h
        have h2 : r.countP p ≤ (c :: r).countP p := by
          rw [List.countP_cons]
          omega
        omega

theorem hasSub_length : ∀ (s pat : List Char), hasSub pat s = true →
    pat.length ≤ s.length := by
  intro s
  induction s with
  | nil =>
      intro pat h
      cases pat with
      | nil => exact Nat.le_refl _
      | cons a q => simp [hasSub] at h
  | cons c r ih =>
      intro pat h
      simp only [hasSub, Bool.or_eq_true] at h
      rcases h with h | h
      · exact (subAt_pre pat (c :: r) h).length_le
      · have h1 := ih pat h
        simp only [List.length_cons]
        omega

/-! ## Shaped-token character counts -/

theorem ibanTok_len (tok : List Char) (h : IbanTok tok) : 23 ≤ tok.length := by
  obtain ⟨g0, g1, g2, g3, g4, g5, s1, s2, s3, s4, s5, htok, h0, h1, h2, h3, h4, h5,
    _, _, _, _, _⟩ := h
  subst htok
  simp only [List.length_cons, List.length_append, List.length_map]
  omega

theorem ibanTok_cntD (tok : List Char) (h : IbanTok tok) :
    tok.countP Char.isDigit = 21 := by
  obtain ⟨g0, g1, g2, g3, g4, g5, s1, s2, s3, s4, s5, htok, h0, h1, h2, h3, h4, h5,
    hs1, hs2, hs3, hs4, hs5⟩ := h
  subst htok
  simp +decide [List.countP_cons, List.countP_append,
    countP_map_len Char.isDigit dchar dchar_isDigit,
    countP_sep_zero s1 hs1 Char.isDigit spaceJS_not_digit,
    countP_sep_zero s2 hs2 Char.isDigit spaceJS_not_digit,
    countP_sep_zero s3 hs3 Char.isDigit spaceJS_not_digit,
    countP_sep_zero s4 hs4 Char.isDigit spaceJS_not_digit,
    countP_sep_zero s5 hs5 Char.isDigit spaceJS_not_digit,
    h0, h1, h2, h3, h4, h5]

theorem passportTok_cnts (tok : List Char) (h : PassportTok tok) :
    6 ≤ tok.countP Char.isDigit ∧ tok.countP Char.isDigit ≤ 9 ∧
    tok.countP isCIiban ≤ 2 := by
  obtain ⟨us, ds, htok, hus1, hus2, hds1, hds2⟩ := h
  subst htok
  refine ⟨?_, ?_, ?_⟩ <;>
    simp +decide [List.countP_append,
      countP_map_zero Char.isDigit uchar uchar_not_digit,
      countP_map_len Char.isDigit dchar dchar_isDigit,
      countP_map_len isCIiban uchar uchar_ciIban,
      countP_map_zero isCIiban dchar dchar_not_ciIban] <;> omega

theorem eidTok_cnts (tok : List Char) (h : EidTok tok) :
    tok.countP Char.isDigit = 15 ∧ tok.countP isCIiban = 0 ∧
    tok.countP isUpperAZ = 0 := by
  obtain ⟨s1, s2, s3, a, b, c, htok, hs1, ha, hs2, hb, hs3⟩ := h
  subst htok
  refine ⟨?_, ?_, ?_⟩ <;>
    simp +decide [List.countP_cons, List.countP_append,
      countP_map_len Char.isDigit dchar dchar_isDigit,
      countP_map_zero isCIiban dchar dchar_not_ciIban,
      countP_map_zero isUpperAZ dchar dchar_not_upper,
      dchar_isDigit, dchar_not_ciIban, dchar_not_upper,
      countP_sep_zero s1 hs1 Char.isDigit eidSep_not_digit,
      countP_sep_zero s2 hs2 Char.isDigit eidSep_not_digit,
      countP_sep_zero s3 hs3 Char.isDigit eidSep_not_digit,
      countP_sep_zero s1 hs1 isCIiban eidSep_not_ciIban,
      countP_sep_zero s2 hs2 isCIiban eidSep_not_ciIban,
      countP_sep_zero s3 hs3 isCIiban eidSep_not_ciIban,
      countP_sep_zero s1 hs1 isUpperAZ eidSep_not_upper,
      countP_sep_zero s2 hs2 isUpperAZ eidSep_not_upper,
      countP_sep_zero s3 hs3 isUpperAZ eidSep_not_upper,
      ha, hb]

theorem emailTok_cnts (tok : List Char) (h : EmailTok tok) :
    tok.countP (fun c => c = '@') = 1 ∧ tok.countP Char.isDigit = 0 ∧
    tok.countP isUpperAZ = 0 := by
  obtain ⟨lo, dm, tl, htok, _, _, _⟩ := h
  subst htok
  refine ⟨?_, ?_, ?_⟩ <;>
    simp +decide [List.countP_cons, List.countP_append,
      countP_map_zero (fun c => decide (c = '@')) lchar lchar_ne_at,
      countP_map_zero Char.isDigit lchar lchar_not_digit,
      countP_map_zero isUpperAZ lchar lchar_not_upper]

theorem mobileTok_cnts (tok : List Char) (h : MobileTok tok) :
    9 ≤ tok.countP Char.isDigit ∧ tok.countP Char.isDigit ≤ 14 ∧
    tok.countP isCIiban = 0 ∧ tok.countP isUpperAZ = 0 ∧
    tok.countP (fun c => c = '@') = 0 := by
  obtain ⟨pfx, ds, hpfx, htok, hds⟩ := h
  subst htok
  rcases hpfx with rfl | rfl | rfl | rfl | rfl <;>
    refine ⟨?_, ?_, ?_, ?_, ?_⟩ <;>
    simp +decide [List.countP_cons, List.countP_append, List.nil_append,
      countP_map_len Char.isDigit dchar dchar_isDigit,
      countP_map_zero isCIiban dchar dchar_not_ciIban,
      countP_map_zero isUpperAZ dchar dchar_not_upper,
      countP_map_zero (fun c => decide (c = '@')) dchar dchar_ne_at, hds]

/-! ## The scrubber on a bare shaped token -/

theorem redact_iban (tok : List Char) (h : IbanTok tok) : redactPII tok = ibanRep := by
  obtain ⟨dl, hdl⟩ := iban1_first tok h
  have hne : tok ≠ [] := by
    obtain ⟨g0, g1, g2, g3, g4, g5, s1, s2, s3, s4, s5, htok, _⟩ := h
    rw [htok]
    simp
  have h1 : replaceAll iban1Re ibanRep tok = ibanRep :=
    replaceAll_full _ _ _ _ hne hdl
  unfold redactPII
  rw [if_neg hne, h1]
  decide

theorem redact_passport (tok : List Char) (h : PassportTok tok) :
    redactPII tok = passportRep := by
  obtain ⟨dl, hdl⟩ := passport_first tok h
  obtain ⟨hc1, hc2, hc3⟩ := passportTok_cnts tok h
  have hne : tok ≠ [] := by
    obtain ⟨us, ds, htok, hus1, _, _, _⟩ := h
    rw [htok]
    cases us with
    | nil => simp at hus1
    | cons a r => simp
  have h1 : replaceAll iban1Re ibanRep tok = tok :=
    replaceAll_count_id cntD_iban1 _ _ (by omega)
  have h2 : replaceAll iban2Re ibanRep tok = tok :=
    replaceAll_count_id cntA_iban2 _ _ (by omega)
  have h3 : replaceAll passportRe passportRep tok = passportRep :=
    replaceAll_full _ _ _ _ hne hdl
  unfold redactPII
  rw [if_neg hne, h1, h2, h3]
  decide

theorem redact_eid (tok : List Char) (h : EidTok tok) : redactPII tok = eidRep := by
  obtain ⟨dl, hdl⟩ := eid_first tok h
  obtain ⟨hc1, hc2, hc3⟩ := eidTok_cnts tok h
  have hne : tok ≠ [] := by
    obtain ⟨s1, s2, s3, a, b, c, htok, _⟩ := h
    rw [htok]
    simp
  have h1 : replaceAll iban1Re ibanRep tok = tok :=
    replaceAll_count_id cntD_iban1 _ _ (by omega)
  have h2 : replaceAll iban2Re ibanRep tok = tok :=
    replaceAll_count_id cntA_iban2 _ _ (by omega)
  have h3 : replaceAll passportRe passportRep tok = tok :=
    replaceAll_count_id cntU_passport _ _ (by omega)
  have h4 : replaceAll eidRe eidRep tok = eidRep :=
    replaceAll_full _ _ _ _ hne hdl
  unfold redactPII
  rw [if_neg hne, h1, h2, h3, h4]
  decide

theorem redact_email (tok : List Char) (h : EmailTok tok) :
    redactPII tok = emailRep := by
  obtain ⟨ll, hll⟩ := email_first tok h
  obtain ⟨hc1, hc2, hc3⟩ := emailTok_cnts tok h
  have hne : tok ≠ [] := by
    obtain ⟨lo, dm, tl, htok, hlo, _, _⟩ := h
    rw [htok]
    cases lo with
    | nil => exact absurd rfl hlo
    | cons a r => simp
  have h1 : replaceAll iban1Re ibanRep tok = tok :=
    replaceAll_count_id cntD_iban1 _ _ (by omega)
  have h2 : replaceAll iban2Re ibanRep tok = tok :=
    replaceAll_count_id cntD_iban2 _ _ (by omega)
  have h3 : replaceAll passportRe passportRep tok = tok :=
    replaceAll_count_id cntU_passport _ _ (by omega)
  have h4 : replaceAll eidRe eidRep tok = tok :=
    replaceAll_count_id cntD_eid _ _ (by omega)
  have h5 : replaceAll emailRe emailRep tok = emailRep :=
    replaceAll_full _ _ _ _ hne hll
  unfold redactPII
  rw [if_neg hne, h1, h2, h3, h4, h5]
  decide

theorem redact_mobile (tok : List Char) (h : MobileTok tok) :
    redactPII tok = phoneRep ∨ redactPII tok = '+' :: phoneRep := by
  obtain ⟨hc1, hc2, hc3, hc4, hc5⟩ := mobileTok_cnts tok h
  obtain ⟨pfx, ds, hpfx, htok, hds⟩ := h
  subst htok
  have hne : (pfx ++ '5' :: ds.map dchar) ≠ [] := by
    rcases hpfx with rfl | rfl | rfl | rfl | rfl <;> simp
  have h1 : replaceAll iban1Re ibanRep (pfx ++ '5' :: ds.map dchar) =
      pfx ++ '5' :: ds.map dchar :=
    replaceAll_count_id cntD_iban1 _ _ (by omega)
  have h2 : replaceAll iban2Re ibanRep (pfx ++ '5' :: ds.map dchar) =
      pfx ++ '5' :: ds.map dchar :=
    replaceAll_count_id cntA_iban2 _ _ (by omega)
  have h3 : replaceAll passportRe passportRep (pfx ++ '5' :: ds.map dchar) =
      pfx ++ '5' :: ds.map dchar :=
    replaceAll_count_id cntU_passport _ _ (by omega)
  have h4 : replaceAll eidRe eidRep (pfx ++ '5' :: ds.map dchar) =
      pfx ++ '5' :: ds.map dchar :=
    replaceAll_count_id cntD_eid _ _ (by omega)
  have h5 : replaceAll emailRe emailRep (pfx ++ '5' :: ds.map dchar) =
      pfx ++ '5' :: ds.map dchar :=
    replaceAll_count_id cntAt_email _ _ (by omega)
  unfold redactPII
  rw [if_neg hne, h1, h2, h3, h4, h5]
  rcases hpfx with rfl | rfl | rfl | rfl | rfl
  · left
    obtain ⟨dl, hdl⟩ := phone1_first ([] ++ '5' :: ds.map dchar)
      ⟨[], ds, Or.inl rfl, rfl, hds⟩ (by intro hcon; simp at hcon)
    rw [replaceAll_full _ _ _ _ (by simp) hdl]
    decide
  · left
    obtain ⟨dl, hdl⟩ := phone1_first (['0'] ++ '5' :: ds.map dchar)
      ⟨['0'], ds, Or.inr (Or.inl rfl), rfl, hds⟩ (by intro hcon; simp at hcon)
    rw [replaceAll_full _ _ _ _ (by simp) hdl]
    decide
  · left
    obtain ⟨dl, hdl⟩ := phone1_first (['9', '7', '1'] ++ '5' :: ds.map dchar)
      ⟨['9', '7', '1'], ds, Or.inr (Or.inr (Or.inl rfl)), rfl, hds⟩
      (by intro hcon; simp at hcon)
    rw [replaceAll_full _ _ _ _ (by simp) hdl]
    decide
  · left
    obtain ⟨dl, hdl⟩ := phone1_first (['0', '0', '9', '7', '1'] ++ '5' :: ds.map dchar)
      ⟨['0', '0', '9', '7', '1'], ds, Or.inr (Or.inr (Or.inr (Or.inl rfl))), rfl, hds⟩
      (by intro hcon; simp at hcon)
    rw [replaceAll_full _ _ _ _ (by simp) hdl]
    decide
  · right
    obtain ⟨hnone, dl, hdl⟩ := phone1_plus ds hds
    have hsplit : (['+', '9', '7', '1'] ++ '5' :: ds.map dchar) =
        '+' :: ('9' :: '7' :: '1' :: '5' :: ds.map dchar) := by simp
    rw [hsplit]
    rw [replaceAll_skip1_full phone1Re phoneRep '+' _ _ hnone hdl (by simp)]
    decide


/-! ## Gate behaviour on shaped tokens and placeholders -/

theorem firstMatch_ne_nil {re : Re} {tok : List Char} {pr : Option Char × List Char}
    (h : firstMatch re none tok = some pr) :
    mres (tok.length + 1) re none tok ≠ [] := by
  intro hnil
  unfold firstMatch at h
  rw [hnil] at h
  simp at h

theorem gate_blocks_ae (pre suf : List Char) (a e : Char) (d1 d2 : Fin 10)
    (ha : a.toLower = 'A'.toLower) (he : e.toLower = 'E'.toLower) :
    hasPII (pre ++ a :: e :: dchar d1 :: dchar d2 :: suf) = true := by
  have hrun : ∀ (f : Nat) (pv : Option Char),
      mres f gateIbanRe pv (a :: e :: dchar d1 :: dchar d2 :: suf) =
        [(some (dchar d2), suf)] := by
    intro f pv
    simp only [gateIbanRe, seqList, litCI, dig]
    rw [mres_seq_one (by rw [mres_cls_cons, if_pos (by simp [ha])])]
    rw [mres_seq_one (by rw [mres_cls_cons, if_pos (by simp [he])])]
    rw [mres_seq_one (by rw [mres_cls_cons, if_pos (dchar_isDigit d1)])]
    rw [mres_cls_cons, if_pos (dchar_isDigit d2)]
  have hne : mres ((a :: e :: dchar d1 :: dchar d2 :: suf).length + 1) gateIbanRe
      (olastD none pre) (a :: e :: dchar d1 :: dchar d2 :: suf) ≠ [] := by
    rw [hrun]
    simp
  have hs := searchRe_of_state gateIbanRe
    (pre ++ a :: e :: dchar d1 :: dchar d2 :: suf)
    (olastD none pre, a :: e :: dchar d1 :: dchar d2 :: suf)
    (suffStates_split pre none _) hne
  unfold hasPII
  rw [hs]
  rfl

theorem gate_blocks_eid (tok : List Char) (h : EidTok tok) : hasPII tok = true := by
  obtain ⟨dl, hdl⟩ := eid_first tok h
  have hne : mres (tok.length + 1) gateEidRe none tok ≠ [] := firstMatch_ne_nil hdl
  have hs := searchRe_of_state gateEidRe tok (none, tok) (suffStates_self none tok) hne
  unfold hasPII
  rw [hs]
  simp

theorem gate_blocks_plus971 (pre suf : List Char) :
    hasPII (pre ++ '+' :: '9' :: '7' :: '1' :: suf) = true := by
  have hA : ∀ (f : Nat) (pv : Option Char),
      mres f (.seq (.cls (fun x => x = '+')) (.seq (.cls (fun x => x = '9'))
        (.seq (.cls (fun x => x = '7')) (.cls (fun x => x = '1'))))) pv
        ('+' :: '9' :: '7' :: '1' :: suf) = [(some '1', suf)] := by
    intro f pv
    rw [mres_seq_one (mres_litcls_ok f pv '+' _)]
    exact mres_str971 f (some '+') suf
  have hne : mres (('+' :: '9' :: '7' :: '1' :: suf).length + 1) gatePhoneRe
      (olastD none pre) ('+' :: '9' :: '7' :: '1' :: suf) ≠ [] := by
    simp only [gatePhoneRe, strRe, List.map_cons, List.map_nil, seqList, lit]
    rw [mres_alt, hA _ _]
    simp
  have hs := searchRe_of_state gatePhoneRe (pre ++ '+' :: '9' :: '7' :: '1' :: suf)
    (olastD none pre, '+' :: '9' :: '7' :: '1' :: suf)
    (suffStates_split pre none _) hne
  unfold hasPII
  rw [hs]
  simp

theorem gate_blocks_05 (ds : List (Fin 10)) (hds : ds.length = 8) :
    hasPII ('0' :: '5' :: ds.map dchar) = true := by
  have hdsne : ds ≠ [] := by intro hg; rw [hg] at hds; simp at hds
  obtain ⟨dl, hdl⟩ := olastD_map_dchar (some '5') ds hdsne
  have hrun8 : ∀ f : Nat, mres f (reN 8 (.cls Char.isDigit)) (some '5')
      (ds.map dchar ++ []) = [(olastD (some '5') (ds.map dchar), [])] := by
    intro f
    have h2 := mres_reN_run_eq (ds.map dchar) f (some '5') []
      (by intro ch hch; simp at hch; obtain ⟨d, _, rfl⟩ := hch; exact dchar_isDigit d)
    rw [show (ds.map dchar).length = 8 by simp [hds]] at h2
    exact h2
  have hB : mres (('0' :: '5' :: ds.map dchar).length + 1)
      (.seq .wb (.seq (.cls (fun x => x = '0')) (.seq (.cls (fun x => x = '5'))
        (.seq (reN 8 (.cls Char.isDigit)) .wb)))) none
      ('0' :: '5' :: ds.map dchar) ≠ [] := by
    rw [show ds.map dchar = ds.map dchar ++ [] from (List.append_nil _).symm]
    rw [mres_seq_one (by rw [mres_wb]; rfl)]
    rw [mres_seq_one (mres_litcls_ok _ _ '0' _)]
    rw [mres_seq_one (mres_litcls_ok _ _ '5' _)]
    rw [mres_seq_one (hrun8 _), hdl, mres_wb,
      if_pos (by simp [atBoundary, wordO, headO, dchar_word dl])]
    simp
  have hne : mres (('0' :: '5' :: ds.map dchar).length + 1) gatePhoneRe none
      ('0' :: '5' :: ds.map dchar) ≠ [] := by
    simp only [gatePhoneRe, strRe, List.map_cons, List.map_nil, seqList, lit, dig]
    rw [mres_alt]
    intro hcon
    rw [List.append_eq_nil] at hcon
    exact hB hcon.2
  have hs := searchRe_of_state gatePhoneRe ('0' :: '5' :: ds.map dchar)
    (none, '0' :: '5' :: ds.map dchar) (suffStates_self none _) hne
  unfold hasPII
  rw [hs]
  simp

theorem gate_blocks_email (tok : List Char) (h : EmailTok tok) :
    hasPII tok = true := by
  obtain ⟨ll, hll⟩ := email_first_gate tok h
  have hne : mres (tok.length + 1) gateEmailRe none tok ≠ [] := firstMatch_ne_nil hll
  have hs := searchRe_of_state gateEmailRe tok (none, tok)
    (suffStates_self none tok) hne
  unfold hasPII
  rw [hs]
  simp

theorem placeholder_cnts (s : List Char) (h : PlaceholderText s) :
    s.countP Char.isDigit = 0 ∧ s.countP (fun c => c = '@') = 0 := by
  obtain ⟨parts, hmem, rfl⟩ := h
  revert hmem
  induction parts with
  | nil =>
      intro _
      exact ⟨rfl, rfl⟩
  | cons q parts ih =>
      intro hmem
      have hq := hmem q (by simp)
      obtain ⟨ih1, ih2⟩ := ih (fun r hr => hmem r (by simp [hr]))
      have hq2 : q.countP Char.isDigit = 0 ∧ q.countP (fun c => c = '@') = 0 := by
        simp [placeholderPieces] at hq
        rcases hq with rfl | rfl | rfl | rfl | rfl | rfl | rfl
        all_goals exact ⟨by decide, by decide⟩
      rw [List.flatten_cons, List.countP_append, List.countP_append]
      omega

theorem gate_passes_placeholder (s : List Char) (h : PlaceholderText s) :
    hasPII s = false := by
  obtain ⟨hD, hAt⟩ := placeholder_cnts s h
  have h1 : searchRe gateIbanRe s = false :=
    searchRe_false_of_count cntD_gateIban s (by omega) hD
  have h2 : searchRe gateEidRe s = false :=
    searchRe_false_of_count cntD_eid s (by omega) hD
  have h3 : searchRe gatePhoneRe s = false :=
    searchRe_false_of_count cntD_gatePhone s (by omega) hD
  have h4 : searchRe gateEmailRe s = false :=
    searchRe_false_of_count cntAt_gateEmail s (by omega) hAt
  unfold hasPII
  rw [h1, h2, h3, h4]
  rfl

theorem redactPII_ne (u : List Char) (hu : u ≠ []) :
    redactPII u =
      replaceAll nameLabelRe nameLabelRep
        (replaceAll honorificRe nameRep
          (replaceAll phone2Re phoneRep
            (replaceAll phone1Re phoneRep
              (replaceAll emailRe emailRep
                (replaceAll eidRe eidRep
                  (replaceAll passportRe passportRep
                    (replaceAll iban2Re ibanRep
                      (replaceAll iban1Re ibanRep u)))))))) := by
  unfold redactPII
  rw [if_neg hu]

/-- C2 (amended): a text that consists exactly of a well-formed IBAN, a
passport-shaped token, a national-ID-shaped token, an email address, or a
local mobile number is rewritten by `redactPII` to the corresponding
placeholder (the `+971` mobile form keeps its leading `+`), and the output
contains no occurrence of the token.  (The original universally-quantified
claim over all texts containing such a substring is refuted by
`c2_counterexample`.) -/
theorem c2_scrubber_removes_token (tok : List Char) :
    (IbanTok tok → redactPII tok = ibanRep ∧ hasSub tok (redactPII tok) = false) ∧
    (PassportTok tok →
      redactPII tok = passportRep ∧ hasSub tok (redactPII tok) = false) ∧
    (EidTok tok → redactPII tok = eidRep ∧ hasSub tok (redactPII tok) = false) ∧
    (EmailTok tok → redactPII tok = emailRep ∧ hasSub tok (redactPII tok) = false) ∧
    (MobileTok tok →
      (redactPII tok = phoneRep ∨ redactPII tok = '+' :: phoneRep) ∧
      hasSub tok (redactPII tok) = false) := by
  refine ⟨fun h => ?_, fun h => ?_, fun h => ?_, fun h => ?_, fun h => ?_⟩
  · have hr := redact_iban tok h
    have hcD := ibanTok_cntD tok h
    refine ⟨hr, ?_⟩
    rw [hr]
    cases hsub : hasSub tok ibanRep
    · rfl
    · exfalso
      have hle := hasSub_countP Char.isDigit ibanRep tok hsub
      have hz : ibanRep.countP Char.isDigit = 0 := by decide
      omega
  · have hr := redact_passport tok h
    obtain ⟨hc1, _, _⟩ := passportTok_cnts tok h
    refine ⟨hr, ?_⟩
    rw [hr]
    cases hsub : hasSub tok passportRep
    · rfl
    · exfalso
      have hle := hasSub_countP Char.isDigit passportRep tok hsub
      have hz : passportRep.countP Char.isDigit = 0 := by decide
      omega
  · have hr := redact_eid tok h
    obtain ⟨hc1, _, _⟩ := eidTok_cnts tok h
    refine ⟨hr, ?_⟩
    rw [hr]
    cases hsub : hasSub tok eidRep
    · rfl
    · exfalso
      have hle := hasSub_countP Char.isDigit eidRep tok hsub
      have hz : eidRep.countP Char.isDigit = 0 := by decide
      omega
  · have hr := redact_email tok h
    obtain ⟨hc1, _, _⟩ := emailTok_cnts tok h
    refine ⟨hr, ?_⟩
    rw [hr]
    cases hsub : hasSub tok emailRep
    · rfl
    · exfalso
      have hle := hasSub_countP (fun c => c = '@') emailRep tok hsub
      have hz : emailRep.countP (fun c => c = '@') = 0 := by decide
      omega
  · have hr := redact_mobile tok h
    obtain ⟨hc1, _, _, _, _⟩ := mobileTok_cnts tok h
    refine ⟨hr, ?_⟩
    rcases hr with hr | hr <;> rw [hr]
    · cases hsub : hasSub tok phoneRep
      · rfl
      · exfalso
        have hle := hasSub_countP Char.isDigit phoneRep tok hsub
        have hz : phoneRep.countP Char.isDigit = 0 := by decide
        omega
    · cases hsub : hasSub tok ('+' :: phoneRep)
      · rfl
      · exfalso
        have hle := hasSub_countP Char.isDigit ('+' :: phoneRep) tok hsub
        have hz : ('+' :: phoneRep).countP Char.isDigit = 0 := by decide
        omega

/-- C2 counterexample: `"05012345678"` contains the local mobile number
`"0501234567"` as a literal substring, but the scrubber leaves the text
unchanged (no pattern matches: the digit run is one digit too long for the
phone patterns and word boundaries fail inside it), so the PII substring
survives in the output — refuting the original claim. -/
theorem c2_counterexample :
    MobileTok "0501234567".data ∧
    hasSub "0501234567".data "05012345678".data = true ∧
    redactPII "05012345678".data = "05012345678".data ∧
    hasSub "0501234567".data (redactPII "05012345678".data) = true := by
  refine ⟨⟨['0'], [0, 1, 2, 3, 4, 5, 6, 7], Or.inr (Or.inl rfl), by decide,
    by decide⟩, by decide, by decide, by decide⟩

/-- C2 witness: a concrete well-formed IBAN is scrubbed to the placeholder
and does not survive, via the theorem. -/
theorem c2_witness :
    IbanTok "AE070331234567890123456".data ∧
    redactPII "AE070331234567890123456".data = ibanRep ∧
    hasSub "AE070331234567890123456".data
      (redactPII "AE070331234567890123456".data) = false := by
  have hshape : IbanTok "AE070331234567890123456".data :=
    ⟨[0, 7], [0, 3, 3, 1], [2, 3, 4, 5], [6, 7, 8, 9], [0, 1, 2, 3], [4, 5, 6],
      [], [], [], [], [], by decide, by decide, by decide, by decide, by decide,
      by decide, by decide, Or.inl rfl, Or.inl rfl, Or.inl rfl, Or.inl rfl,
      Or.inl rfl⟩
  exact ⟨hshape, ((c2_scrubber_removes_token _).1 hshape).1,
    ((c2_scrubber_removes_token _).1 hshape).2⟩

/-- C3 (amended): the gate blocks every text containing `AE` (any case)
followed by two digits anywhere, every bare national-ID-shaped token, every
text containing `+971` anywhere, every bare `05`-prefixed mobile number, and
every bare email-shaped token; it passes every text made only of scrubber
placeholders.  (It does not block a bare-`5` mobile number — see
`c3_counterexample` — and it returns only a boolean, identifying no
category.) -/
theorem c3_gate_block_pass :
    (∀ (pre suf : List Char) (a e : Char) (d1 d2 : Fin 10),
        a.toLower = 'A'.toLower → e.toLower = 'E'.toLower →
        hasPII (pre ++ a :: e :: dchar d1 :: dchar d2 :: suf) = true) ∧
    (∀ tok, EidTok tok → hasPII tok = true) ∧
    (∀ pre suf : List Char, hasPII (pre ++ '+' :: '9' :: '7' :: '1' :: suf) = true) ∧
    (∀ ds : List (Fin 10), ds.length = 8 →
      hasPII ('0' :: '5' :: ds.map dchar) = true) ∧
    (∀ tok, EmailTok tok → hasPII tok = true) ∧
    (∀ s, PlaceholderText s → hasPII s = false) :=
  ⟨fun pre suf a e d1 d2 ha he => gate_blocks_ae pre suf a e d1 d2 ha he,
    gate_blocks_eid, gate_blocks_plus971, gate_blocks_05, gate_blocks_email,
    gate_passes_placeholder⟩

/-- C3 counterexample: `"501234567"` is mobile-phone-shaped (bare mobile
prefix digit `5` plus 8 digits, empty optional country prefix), yet the gate
passes it: the gate's phone pattern requires a leading `05` or a literal
`+971`. -/
theorem c3_counterexample :
    MobileTok "501234567".data ∧ hasPII "501234567".data = false := by
  constructor
  · exact ⟨[], [0, 1, 2, 3, 4, 5, 6, 7], Or.inl rfl, by decide, by decide⟩
  · decide

/-- C3 witness: a concrete blocked mobile number and a concrete passed
placeholder, via the theorem. -/
theorem c3_witness :
    hasPII ('0' :: '5' :: (([0, 1, 2, 3, 4, 5, 6, 7] : List (Fin 10)).map dchar)) =
      true ∧
    hasPII "[REDACTED_IBAN]".data = false := by
  constructor
  · exact c3_gate_block_pass.2.2.2.1 [0, 1, 2, 3, 4, 5, 6, 7] (by decide)
  · exact c3_gate_block_pass.2.2.2.2.2 "[REDACTED_IBAN]".data
      ⟨[ibanRep], by intro p hp; simp at hp; rw [hp]; simp [placeholderPieces],
        by simp [ibanRep]⟩

/-- C4 (amended): the scrubber is idempotent on every input whose scrub
output matches none of the nine patterns any more; general idempotence is
refuted by `c4_counterexample`. -/
theorem c4_idempotent_on_clean_output (t : List Char)
    (h : noResidualMatch (redactPII t)) :
    redactPII (redactPII t) = redactPII t := by
  obtain ⟨h1, h2, h3, h4, h5, h6, h7, h8, h9⟩ := h
  by_cases hu : redactPII t = []
  · rw [hu]
    decide
  · rw [redactPII_ne (redactPII t) hu]
    rw [replaceAll_eq_self_of_not_search _ _ _ h1,
      replaceAll_eq_self_of_not_search _ _ _ h2,
      replaceAll_eq_self_of_not_search _ _ _ h3,
      replaceAll_eq_self_of_not_search _ _ _ h4,
      replaceAll_eq_self_of_not_search _ _ _ h5,
      replaceAll_eq_self_of_not_search _ _ _ h6,
      replaceAll_eq_self_of_not_search _ _ _ h7,
      replaceAll_eq_self_of_not_search _ _ _ h8,
      replaceAll_eq_self_of_not_search _ _ _ h9]

/-- C4 counterexample: scrubbing `"Name: Bob0501234567"` once yields
`"Name: [REDACTED_NAME]0501234567"` (the digits hide behind a word boundary
on the first pass), and scrubbing again redacts the now-exposed phone number,
so `redactPII` is not idempotent. -/
theorem c4_counterexample :
    redactPII (redactPII "Name: Bob0501234567".data) ≠
      redactPII "Name: Bob0501234567".data := by decide

/-- C4 witness: a clean input (`"hello"`) satisfies the residual-match
condition and scrubbing twice equals scrubbing once, via the theorem. -/
theorem c4_witness :
    noResidualMatch (redactPII "hello".data) ∧
    redactPII (redactPII "hello".data) = redactPII "hello".data := by
  have h : noResidualMatch (redactPII "hello".data) := by
    unfold noResidualMatch
    refine ⟨?_, ?_, ?_, ?_, ?_, ?_, ?_, ?_, ?_⟩ <;> decide
  exact ⟨h, c4_idempotent_on_clean_output "hello".data h⟩

/-- C10: the gate's IBAN check has no word boundaries and is
case-insensitive, so whenever the scrubbed text contains `AE` (in any case)
immediately followed by two digits — even inside a benign token — the
pipeline fails with the PII-detected message and the reasoning stage is never
called (call flag `false`). -/
theorem c10_gate_substring_false_positive (ocr : Except String (List Char))
    (reasoningModel : List Char → Except String (List Char))
    (jsonParse : List Char → Except String SalaryData) (rawText : List Char)
    (pre suf : List Char) (a e : Char) (d1 d2 : Fin 10)
    (hocr : ocr = Except.ok rawText)
    (hscrub : redactPII rawText = pre ++ a :: e :: dchar d1 :: dchar d2 :: suf)
    (ha : a.toLower = 'A'.toLower) (he : e.toLower = 'E'.toLower) :
    extractSalaryFromDocument true ocr reasoningModel jsonParse =
      (.failure piiDetectedMsg, false) := by
  subst hocr
  have hgate : hasPII (redactPII rawText) = true := by
    rw [hscrub]
    exact gate_blocks_ae pre suf a e d1 d2 ha he
  simp only [extractSalaryFromDocument, Bool.not_true, Bool.false_eq_true, if_false,
    hgate, if_true, orFallback_pii]

/-- C10 witness: the benign scrubbed text `"UAE12"` (which contains no
IBAN-shaped token: every well-formed IBAN is at least 23 characters long)
trips the gate and fails the pipeline, via the theorem. -/
theorem c10_witness :
    redactPII "UAE12".data = "UAE12".data ∧
    (∀ tok, IbanTok tok → hasSub tok "UAE12".data = false) ∧
    extractSalaryFromDocument true (.ok "UAE12".data) (fun _ => .ok [])
      (fun _ => .error "x") = (.failure piiDetectedMsg, false) := by
  refine ⟨by decide, ?_, ?_⟩
  · intro tok htok
    cases hsub : hasSub tok "UAE12".data
    · rfl
    · exfalso
      have h1 := ibanTok_len tok htok
      have h2 := hasSub_length "UAE12".data tok hsub
      have h3 : ("UAE12".data).length = 5 := rfl
      omega
  · exact c10_gate_substring_false_positive (.ok "UAE12".data) (fun _ => .ok [])
      (fun _ => .error "x") "UAE12".data ['U'] [] 'A' 'E' 1 2 rfl (by decide) rfl rfl

end Coinedone
